import Mathlib

/-
Verification of the transform logic of the arm-v7-codemod repository.

The repository contains two tree-rewrite passes implemented over ts-morph
syntax trees:

* `LROTransform` rewrites long-running-operation call sites: it enumerates
  all await-expressions of a source file in document order and rewrites the
  ones whose operand is a call `target.beginX(...)` with a begin-candidate
  method name.

* `PropertyNestingTransform` rewrites object literals: it enumerates all
  object literals, processes them innermost-first, and for eligible literals
  moves the non-allow-listed properties under a synthesized
  `properties: { ... }` entry.

Two embeddings are developed below.

`Codemod.PropText` is a text-level model of one object literal: a literal is
a list of property entries, each carrying its source text, and the transform
either returns the original text unchanged or the restructured text built by
the exact string splicing of `restructureObjectLiteral`.

`Codemod.Tree` is a tree-level model of whole source files.  Mutation by
`replaceWithText` / `setInitializer` / `setExpression` followed by re-parsing
is modelled structurally: splicing the verbatim text of well-formed subtrees
re-parses to the same subtree structure, so a rewrite is a function from
nodes to nodes.  The enumerated-upfront traversals of both passes are
modelled as recursive functions:

* the object-literal pass enumerates literals and processes them in reverse
  document order, i.e. every literal is processed after all literals in its
  subtree; replaced nodes are skipped via `wasForgotten`, and freshly spliced
  nodes are not in the enumeration, which is exactly a bottom-up fold that
  does not revisit its own output;

* the await pass processes the pre-order list of await-expressions; a
  rewrite of the patterns without `AndWait` replaces the whole operand (or
  the whole initializer), which forgets every enumerated await-expression
  inside it; the loop has no `wasForgotten` guard, so reaching such a
  forgotten node throws.  The pass is therefore modelled as an
  `Option`-valued function, `none` meaning an exception escapes the pass.
-/

namespace Codemod

/-- Models `name.charAt(0).toLowerCase() + name.slice(1)` from
`LROTransform.transformMethodName`: lowercase the first character, keep the
rest (on the empty string the result is empty). -/
def lowerFirst : List Char → List Char
  | [] => []
  | c :: rest => c.toLower :: rest

/-- `LROTransform.isBeginMethod`: the method name starts with the literal
string `begin`, has more than 5 characters, and the character at index 5
matches the regular expression `[A-Z]` (an ASCII uppercase letter, which is
what `Char.isUpper` tests). -/
def isBeginMethod (m : String) : Bool :=
  "begin".data.isPrefixOf m.data && decide (5 < m.data.length) &&
    (match m.data.drop 5 with
     | c :: _ => c.isUpper
     | [] => false)

/-- `LROTransform.isAndWaitMethod`: the method name ends with `AndWait`. -/
def isAndWaitMethod (m : String) : Bool :=
  "AndWait".data.isSuffixOf m.data

/-- `LROTransform.transformMethodName`: drop the `begin` prefix
(`slice(5)`), drop a trailing `AndWait` when present (`slice(0, -7)`), and
lowercase the first remaining character. -/
def transformMethodName (m : String) : String :=
  let name := m.data.drop 5
  let name2 := if "AndWait".data.isSuffixOf name then name.take (name.length - 7) else name
  String.mk (lowerFirst name2)

/-- The static allow-list `PropertyNestingTransform.topLevelProperties`. -/
def topLevelProperties : List String :=
  ["location", "sku", "tags", "identity", "id", "name", "type",
   "kind", "etag", "systemData", "zones", "extendedLocation"]

/-- `this.topLevelProperties.has(propName)`. -/
def isTopLevelName (n : String) : Bool := topLevelProperties.contains n

end Codemod

namespace Codemod.PropText

/-- One entry of an object literal as seen by `PropertyNestingTransform`:
a normal property assignment `key: value` (carrying its name and its full
source text), a shorthand property assignment (its text is its name), a
spread assignment (carrying its source text), or any other member kind such
as a method declaration or an accessor (carrying its source text), for which
`getPropertyName` has no answer. -/
inductive OProp where
  | passign (name : String) (text : String)
  | pshort (name : String)
  | pspread (text : String)
  | pother (text : String)
deriving DecidableEq

/-- `prop.getText()`: the verbatim source text of the entry. -/
def getText : OProp → String
  | .passign _ t => t
  | .pshort n => n
  | .pspread t => t
  | .pother t => t

/-- `Node.isSpreadAssignment(prop)`. -/
def isSpreadAssignment : OProp → Bool
  | .pspread _ => true
  | _ => false

/-- `PropertyNestingTransform.getPropertyName`: the name for a property
assignment or a shorthand property assignment, and `undefined` otherwise. -/
def getPropertyName : OProp → Option String
  | .passign n _ => some n
  | .pshort n => some n
  | _ => none

/-- The `hasTopLevelProp` flag computed by the loop of
`shouldTransformObjectLiteral`: some non-spread property has a readable name
that is in the allow-list. -/
def hasTopLevelProp (props : List OProp) : Bool :=
  props.any fun p =>
    !isSpreadAssignment p &&
      (match getPropertyName p with
       | some n => Codemod.isTopLevelName n
       | none => false)

/-- The `hasNestableProp` flag computed by the loop of
`shouldTransformObjectLiteral`: some non-spread property has a readable name
that is neither in the allow-list nor equal to `properties`. -/
def hasNestableProp (props : List OProp) : Bool :=
  props.any fun p =>
    !isSpreadAssignment p &&
      (match getPropertyName p with
       | some n => !Codemod.isTopLevelName n && n != "properties"
       | none => false)

/-- `PropertyNestingTransform.shouldTransformObjectLiteral`: at least one
property, and both flags of the classification loop set. -/
def shouldTransformObjectLiteral (props : List OProp) : Bool :=
  !props.isEmpty && hasTopLevelProp props && hasNestableProp props

/-- The guard at the start of `transformObjectLiteral`: the literal already
has a property that is a `PropertyAssignment` named `properties` (shorthand
entries do not satisfy `Node.isPropertyAssignment`). -/
def hasPropertiesAssignment (props : List OProp) : Bool :=
  props.any fun p =>
    match p with
    | .passign n _ => n == "properties"
    | _ => false

/-- `PropertyNestingTransform.categorizeProperties`: partition the entries
in order into the top-level bucket (non-spread, readable allow-listed name),
the nested bucket (non-spread, readable name not in the allow-list), and the
spread bucket; entries with no readable name fall in no bucket. -/
def categorizeProperties : List OProp → List OProp × List OProp × List OProp
  | [] => ([], [], [])
  | p :: rest =>
    let (t, n, s) := categorizeProperties rest
    if isSpreadAssignment p then (t, n, p :: s)
    else
      match getPropertyName p with
      | none => (t, n, s)
      | some nm => if Codemod.isTopLevelName nm then (p :: t, n, s) else (t, p :: n, s)

/-- `PropertyNestingTransform.restructureObjectLiteral`: the rebuilt literal
text; top-level entry texts, then the synthesized `properties` entry holding
the nested entry texts joined with a comma, then the spread entry texts,
joined with a comma and wrapped in braces. -/
def restructureObjectLiteral (topLevel nested spreads : List OProp) : String :=
  let nestedProps := String.intercalate ",\n      " (nested.map getText)
  let parts := topLevel.map getText ++
    ["properties: \x7b\n      " ++ nestedProps ++ "\n    \x7d"] ++ spreads.map getText
  "\x7b\n    " ++ String.intercalate ",\n    " parts ++ "\n  \x7d"

/-- `PropertyNestingTransform.transformObjectLiteral` on one literal whose
source text is `origText` and whose entries are `props`: the text of the
literal afterwards (the original text when any guard fires, the restructured
text otherwise). -/
def transformObjectLiteral (origText : String) (props : List OProp) : String :=
  if !shouldTransformObjectLiteral props then origText
  else if hasPropertiesAssignment props then origText
  else
    let (topLevel, nested, spreads) := categorizeProperties props
    if nested.isEmpty then origText
    else restructureObjectLiteral topLevel nested spreads

/-- The top-level bucket membership test, stated independently of the
categorization recursion (used to state order preservation). -/
def inTopBucket (p : OProp) : Bool :=
  !isSpreadAssignment p &&
    (match getPropertyName p with
     | some n => Codemod.isTopLevelName n
     | none => false)

/-- The nested bucket membership test, stated independently of the
categorization recursion. -/
def inNestedBucket (p : OProp) : Bool :=
  !isSpreadAssignment p &&
    (match getPropertyName p with
     | some n => !Codemod.isTopLevelName n
     | none => false)

/-- The claim-side reading of a literal that contains only allow-listed
keys: every entry is a property assignment or shorthand whose name is in the
allow-list. -/
def onlyTopLevelKeys (props : List OProp) : Bool :=
  props.all fun p =>
    match p with
    | .passign n _ => Codemod.isTopLevelName n
    | .pshort n => Codemod.isTopLevelName n
    | _ => false

end Codemod.PropText

namespace Codemod.Tree

mutual
/-- Expressions, as far as the two passes inspect them: await-expressions,
call expressions with a callee and an argument list, property accesses
`target.name`, identifiers, object literals, and opaque atoms (any other
expression form, carried as verbatim text that neither pass inspects). -/
inductive Expr where
  | awaitE : Expr → Expr
  | call : Expr → Args → Expr
  | propAccess : Expr → String → Expr
  | ident : String → Expr
  | objectLit : Props → Expr
  | atom : String → Expr

/-- Argument lists of a call expression. -/
inductive Args where
  | nil : Args
  | cons : Expr → Args → Args

/-- One member of an object literal: a property assignment `name: value`, a
shorthand property assignment, a spread assignment (opaque text), or any
other member kind (opaque text, no readable name). -/
inductive PProp where
  | passign : String → Expr → PProp
  | pshort : String → PProp
  | pspread : String → PProp
  | pother : String → PProp

/-- The ordered members of an object literal. -/
inductive Props where
  | nil : Props
  | cons : PProp → Props → Props
end

mutual
/-- Statements: a variable statement with a single declaration
`const x = init;`, an expression statement, a block, and a case clause (a
statement container whose parent kind is neither `Block` nor `SourceFile`). -/
inductive Stmt where
  | varDecl : String → Expr → Stmt
  | exprStmt : Expr → Stmt
  | block : Stmts → Stmt
  | caseClause : Stmts → Stmt

/-- Ordered statement sequences; a source file is a `Stmts`. -/
inductive Stmts where
  | nil : Stmts
  | cons : Stmt → Stmts → Stmts
end


deriving instance DecidableEq for Expr
deriving instance DecidableEq for Args
deriving instance DecidableEq for PProp
deriving instance DecidableEq for Props
deriving instance DecidableEq for Stmt
deriving instance DecidableEq for Stmts

/-- List append on `Props`. -/
def appendProps : Props → Props → Props
  | .nil, b => b
  | .cons p rest, b => .cons p (appendProps rest b)

/-- List append on `Stmts`. -/
def appendStmts : Stmts → Stmts → Stmts
  | .nil, b => b
  | .cons s rest, b => .cons s (appendStmts rest b)

end Codemod.Tree

namespace Codemod.Tree.PropertyNestingTransform

/-- `PropertyNestingTransform.getPropertyName` at the tree level. -/
def getPropertyName : PProp → Option String
  | .passign n _ => some n
  | .pshort n => some n
  | _ => none

/-- `Node.isSpreadAssignment` at the tree level. -/
def isSpreadAssignment : PProp → Bool
  | .pspread _ => true
  | _ => false

/-- Emptiness test of a member list. -/
def propsIsEmpty : Props → Bool
  | .nil => true
  | .cons _ _ => false

/-- The `hasTopLevelProp` flag of `shouldTransformObjectLiteral`. -/
def hasTopLevelProp : Props → Bool
  | .nil => false
  | .cons p rest =>
    (!isSpreadAssignment p &&
      (match getPropertyName p with
       | some n => Codemod.isTopLevelName n
       | none => false)) || hasTopLevelProp rest

/-- The `hasNestableProp` flag of `shouldTransformObjectLiteral`. -/
def hasNestableProp : Props → Bool
  | .nil => false
  | .cons p rest =>
    (!isSpreadAssignment p &&
      (match getPropertyName p with
       | some n => !Codemod.isTopLevelName n && n != "properties"
       | none => false)) || hasNestableProp rest

/-- `PropertyNestingTransform.shouldTransformObjectLiteral`. -/
def shouldTransformObjectLiteral (ps : Props) : Bool :=
  !propsIsEmpty ps && hasTopLevelProp ps && hasNestableProp ps

/-- Does the member satisfy
`Node.isPropertyAssignment(prop) && prop.getName() === "properties"`? -/
def isPropertiesAssignment : PProp → Bool
  | .passign n _ => n == "properties"
  | _ => false

/-- The `transformObjectLiteral` guard: the literal already has a property
assignment named `properties`. -/
def hasPropertiesAssignment : Props → Bool
  | .nil => false
  | .cons p rest => isPropertiesAssignment p || hasPropertiesAssignment rest

/-- `PropertyNestingTransform.categorizeProperties` at the tree level. -/
def categorizeProperties : Props → Props × Props × Props
  | .nil => (.nil, .nil, .nil)
  | .cons p rest =>
    let (t, n, s) := categorizeProperties rest
    if isSpreadAssignment p then (t, n, .cons p s)
    else
      match getPropertyName p with
      | none => (t, n, s)
      | some nm => if Codemod.isTopLevelName nm then (.cons p t, n, s) else (t, .cons p n, s)

/-- `PropertyNestingTransform.restructureObjectLiteral` at the tree level:
the spliced text re-parses to the top-level entries, then one property
assignment `properties` whose value is the object literal of the nested
entries, then the spread entries. -/
def restructureObjectLiteral (topLevel nested spreads : Props) : Props :=
  appendProps topLevel (.cons (.passign "properties" (.objectLit nested)) spreads)

/-- `PropertyNestingTransform.transformObjectLiteral` on one literal node
whose members are `ps` (already processed, since the pass is innermost
first): the literal node afterwards. -/
def transformObjectLiteral (ps : Props) : Expr :=
  if !shouldTransformObjectLiteral ps then .objectLit ps
  else if hasPropertiesAssignment ps then .objectLit ps
  else
    let buckets := categorizeProperties ps
    if propsIsEmpty buckets.2.1 then .objectLit ps
    else .objectLit (restructureObjectLiteral buckets.1 buckets.2.1 buckets.2.2)

mutual
/-- The object-literal pass below an expression.  The pass enumerates all
object literals up front and processes them in reverse document order, so
every literal is processed after every literal strictly inside it, and the
members spliced in by a rewrite are not part of the enumeration: this is a
bottom-up fold that applies `transformObjectLiteral` once per original
literal. -/
def visitExpr : Expr → Expr
  | .awaitE e => .awaitE (visitExpr e)
  | .call c args => .call (visitExpr c) (visitArgs args)
  | .propAccess t n => .propAccess (visitExpr t) n
  | .ident n => .ident n
  | .objectLit ps => transformObjectLiteral (visitProps ps)
  | .atom s => .atom s

/-- The object-literal pass below an argument list. -/
def visitArgs : Args → Args
  | .nil => .nil
  | .cons a rest => .cons (visitExpr a) (visitArgs rest)

/-- The object-literal pass below one object-literal member. -/
def visitProp : PProp → PProp
  | .passign n v => .passign n (visitExpr v)
  | .pshort n => .pshort n
  | .pspread t => .pspread t
  | .pother t => .pother t

/-- The object-literal pass below a member list. -/
def visitProps : Props → Props
  | .nil => .nil
  | .cons p rest => .cons (visitProp p) (visitProps rest)
end

mutual
/-- The object-literal pass below one statement. -/
def visitStmt : Stmt → Stmt
  | .varDecl x e => .varDecl x (visitExpr e)
  | .exprStmt e => .exprStmt (visitExpr e)
  | .block ss => .block (visitStmts ss)
  | .caseClause ss => .caseClause (visitStmts ss)

/-- The object-literal pass below a statement sequence. -/
def visitStmts : Stmts → Stmts
  | .nil => .nil
  | .cons s rest => .cons (visitStmt s) (visitStmts rest)
end

/-- `PropertyNestingTransform.transform` on a source file. -/
def transform (file : Stmts) : Stmts := visitStmts file

end Codemod.Tree.PropertyNestingTransform

namespace Codemod.Tree.LROTransform

mutual
/-- Whether an expression contains any await-expression (used to decide
whether a rewrite that splices over a region forgets an enumerated
await-expression that the loop will still visit). -/
def containsAwait : Expr → Bool
  | .awaitE _ => true
  | .call c args => containsAwait c || containsAwaitArgs args
  | .propAccess t _ => containsAwait t
  | .ident _ => false
  | .objectLit ps => containsAwaitProps ps
  | .atom _ => false

/-- `containsAwait` over an argument list. -/
def containsAwaitArgs : Args → Bool
  | .nil => false
  | .cons a rest => containsAwait a || containsAwaitArgs rest

/-- `containsAwait` over one object-literal member. -/
def containsAwaitProp : PProp → Bool
  | .passign _ v => containsAwait v
  | _ => false

/-- `containsAwait` over a member list. -/
def containsAwaitProps : Props → Bool
  | .nil => false
  | .cons p rest => containsAwaitProp p || containsAwaitProps rest
end

mutual
/-- The await pass below an expression, processing the pre-order sequence of
enumerated await-expressions that lie in this subtree.  At an
await-expression whose operand is `t.m(args)` with `isBeginMethod m`:

* with the `AndWait` suffix (`transformAndWaitPattern`) only the method name
  token is replaced, and the loop continues into the enumerated
  await-expressions inside `t` and `args`;

* without the suffix, in expression position (`transformDirectAwait`) the
  whole operand is replaced by `<renamed call>.submitted()`; the spliced
  text is built from the verbatim text of `t` and `args`, and every
  enumerated await-expression inside the old operand is forgotten, so if
  there is one the loop throws on it right after (`none`).

A non-matching await-expression is skipped and the loop continues into its
operand. -/
def processExpr : Expr → Option Expr
  | .awaitE (.call (.propAccess t m) args) =>
    if Codemod.isBeginMethod m then
      if Codemod.isAndWaitMethod m then
        match processExpr t, processArgs args with
        | some t', some args' =>
          some (.awaitE (.call (.propAccess t' (Codemod.transformMethodName m)) args'))
        | _, _ => none
      else
        if containsAwait t || containsAwaitArgs args then none
        else
          some (.awaitE (.call (.propAccess
            (.call (.propAccess t (Codemod.transformMethodName m)) args) "submitted") .nil))
    else
      match processExpr t, processArgs args with
      | some t', some args' => some (.awaitE (.call (.propAccess t' m) args'))
      | _, _ => none
  | .awaitE e => (processExpr e).map .awaitE
  | .call c args =>
    match processExpr c, processArgs args with
    | some c', some args' => some (.call c' args')
    | _, _ => none
  | .propAccess t n => (processExpr t).map (.propAccess · n)
  | .ident n => some (.ident n)
  | .objectLit ps => (processProps ps).map .objectLit
  | .atom s => some (.atom s)

/-- The await pass below an argument list. -/
def processArgs : Args → Option Args
  | .nil => some .nil
  | .cons a rest =>
    match processExpr a, processArgs rest with
    | some a', some rest' => some (.cons a' rest')
    | _, _ => none

/-- The await pass below one object-literal member. -/
def processProp : PProp → Option PProp
  | .passign n v => (processExpr v).map (.passign n)
  | .pshort n => some (.pshort n)
  | .pspread t => some (.pspread t)
  | .pother t => some (.pother t)

/-- The await pass below a member list. -/
def processProps : Props → Option Props
  | .nil => some .nil
  | .cons p rest =>
    match processProp p, processProps rest with
    | some p', some rest' => some (.cons p' rest')
    | _, _ => none
end

mutual
/-- The await pass on one statement; `canInsert` records whether the parent
of the statement is a `Block` or the `SourceFile` (the two containers into
which `transformPollerAssignment` inserts).  The result is the list of
statements that replaces the statement.

At `const x = await t.m(args);` with `isBeginMethod m` and no `AndWait`
suffix (`transformPollerAssignment`), the method name is renamed, the
initializer is replaced by the bare renamed call (this happens before the
container check), and only then, if `canInsert`, the statement
`await x.submitted();` is inserted after the variable statement; the
inserted statement is not part of the enumeration.  Replacing the
initializer forgets every enumerated await-expression inside the old
operand, so if there is one the loop throws on it right after (`none`). -/
def processStmt (canInsert : Bool) : Stmt → Option Stmts
  | .varDecl x (.awaitE (.call (.propAccess t m) args)) =>
    if Codemod.isBeginMethod m then
      if Codemod.isAndWaitMethod m then
        match processExpr t, processArgs args with
        | some t', some args' =>
          some (.cons (.varDecl x (.awaitE (.call
            (.propAccess t' (Codemod.transformMethodName m)) args'))) .nil)
        | _, _ => none
      else
        if containsAwait t || containsAwaitArgs args then none
        else
          let bare := Expr.call (.propAccess t (Codemod.transformMethodName m)) args
          if canInsert then
            some (.cons (.varDecl x bare)
              (.cons (.exprStmt (.awaitE (.call (.propAccess (.ident x) "submitted") .nil))) .nil))
          else
            some (.cons (.varDecl x bare) .nil)
    else
      match processExpr t, processArgs args with
      | some t', some args' =>
        some (.cons (.varDecl x (.awaitE (.call (.propAccess t' m) args'))) .nil)
      | _, _ => none
  | .varDecl x (.awaitE e) =>
    (processExpr e).map fun e' => .cons (.varDecl x (.awaitE e')) .nil
  | .varDecl x e => (processExpr e).map fun e' => .cons (.varDecl x e') .nil
  | .exprStmt e => (processExpr e).map fun e' => .cons (.exprStmt e') .nil
  | .block ss => (processStmts true ss).map fun ss' => .cons (.block ss') .nil
  | .caseClause ss => (processStmts false ss).map fun ss' => .cons (.caseClause ss') .nil

/-- The await pass on a statement sequence, in document order. -/
def processStmts (canInsert : Bool) : Stmts → Option Stmts
  | .nil => some .nil
  | .cons s rest =>
    match processStmt canInsert s, processStmts canInsert rest with
    | some out, some rest' => some (appendStmts out rest')
    | _, _ => none
end

/-- `LROTransform.transform` on a source file (statement containers directly
in a source file have the `SourceFile` parent, so insertion is allowed).
`none` models an exception escaping the pass. -/
def transform (file : Stmts) : Option Stmts := processStmts true file

end Codemod.Tree.LROTransform

namespace Codemod.Tree

/-- The composed pipeline in the order fixed by the design: the
object-literal pass, then the call-pattern pass. -/
def pipeline (file : Stmts) : Option Stmts :=
  LROTransform.transform (PropertyNestingTransform.transform file)

mutual
/-- Analysis predicate for the idempotence analysis: every member-access
name `m` in the tree is such that, if it is an `AndWait` begin-candidate,
its rewritten name is not again a begin-candidate. -/
def goodE : Expr → Bool
  | .awaitE e => goodE e
  | .call c args => goodE c && goodArgs args
  | .propAccess t m =>
    (!(Codemod.isBeginMethod m && Codemod.isAndWaitMethod m &&
        Codemod.isBeginMethod (Codemod.transformMethodName m))) && goodE t
  | .ident _ => true
  | .objectLit ps => goodProps ps
  | .atom _ => true

/-- `goodE` over an argument list. -/
def goodArgs : Args → Bool
  | .nil => true
  | .cons a rest => goodE a && goodArgs rest

/-- `goodE` over one object-literal member. -/
def goodProp : PProp → Bool
  | .passign _ v => goodE v
  | _ => true

/-- `goodE` over a member list. -/
def goodProps : Props → Bool
  | .nil => true
  | .cons p rest => goodProp p && goodProps rest
end

mutual
/-- `goodE` over one statement. -/
def goodStmt : Stmt → Bool
  | .varDecl _ e => goodE e
  | .exprStmt e => goodE e
  | .block ss => goodStmts ss
  | .caseClause ss => goodStmts ss

/-- `goodE` over a statement sequence. -/
def goodStmts : Stmts → Bool
  | .nil => true
  | .cons s rest => goodStmt s && goodStmts rest
end

mutual
/-- Analysis predicate for the exception analysis: no await-expression is
nested inside the operand of another await-expression. -/
def noNestedE : Expr → Bool
  | .awaitE e => !LROTransform.containsAwait e
  | .call c args => noNestedE c && noNestedArgs args
  | .propAccess t _ => noNestedE t
  | .ident _ => true
  | .objectLit ps => noNestedProps ps
  | .atom _ => true

/-- `noNestedE` over an argument list. -/
def noNestedArgs : Args → Bool
  | .nil => true
  | .cons a rest => noNestedE a && noNestedArgs rest

/-- `noNestedE` over one object-literal member. -/
def noNestedProp : PProp → Bool
  | .passign _ v => noNestedE v
  | _ => true

/-- `noNestedE` over a member list. -/
def noNestedProps : Props → Bool
  | .nil => true
  | .cons p rest => noNestedProp p && noNestedProps rest
end

/-- Shape test: is the expression a member access `t.m`? -/
def isPropAccessShape : Expr → Bool
  | .propAccess _ _ => true
  | _ => false

/-- Shape test: is the expression a call whose callee is a member access,
i.e. the only operand shape of an await-expression that
`transformAwaitExpression` does not skip? -/
def isMethodCallShape : Expr → Bool
  | .call c _ => isPropAccessShape c
  | _ => false

/-- Shape test: is the expression an await-expression? -/
def isAwaitShape : Expr → Bool
  | .awaitE _ => true
  | _ => false

mutual
/-- `noNestedE` over one statement. -/
def noNestedStmt : Stmt → Bool
  | .varDecl _ e => noNestedE e
  | .exprStmt e => noNestedE e
  | .block ss => noNestedStmts ss
  | .caseClause ss => noNestedStmts ss

/-- `noNestedE` over a statement sequence. -/
def noNestedStmts : Stmts → Bool
  | .nil => true
  | .cons s rest => noNestedStmt s && noNestedStmts rest
end

end Codemod.Tree

namespace Codemod.PropText

theorem categorizeProperties_eq_filters (props : List OProp) :
    categorizeProperties props =
      (props.filter inTopBucket, props.filter inNestedBucket, props.filter isSpreadAssignment) := by
  induction props with
  | nil => rfl
  | cons p rest ih =>
    cases p with
    | passign nm tx =>
      by_cases h : Codemod.isTopLevelName nm = true <;>
        simp [categorizeProperties, ih, inTopBucket, inNestedBucket, isSpreadAssignment,
          getPropertyName, List.filter, h]
    | pshort nm =>
      by_cases h : Codemod.isTopLevelName nm = true <;>
        simp [categorizeProperties, ih, inTopBucket, inNestedBucket, isSpreadAssignment,
          getPropertyName, List.filter, h]
    | pspread tx =>
      simp [categorizeProperties, ih, inTopBucket, inNestedBucket, isSpreadAssignment,
        getPropertyName, List.filter]
    | pother tx =>
      simp [categorizeProperties, ih, inTopBucket, inNestedBucket, isSpreadAssignment,
        getPropertyName, List.filter]

theorem onlyTopLevelKeys_no_nestable (props : List OProp)
    (h : onlyTopLevelKeys props = true) : hasNestableProp props = false := by
  induction props with
  | nil => rfl
  | cons p rest ih =>
    simp only [onlyTopLevelKeys, List.all_cons, Bool.and_eq_true] at h
    obtain ⟨hp, hrest⟩ := h
    have ihr := ih hrest
    cases p with
    | passign nm tx => simp_all [hasNestableProp, isSpreadAssignment, getPropertyName, onlyTopLevelKeys]
    | pshort nm => simp_all [hasNestableProp, isSpreadAssignment, getPropertyName, onlyTopLevelKeys]
    | pspread tx => simp at hp
    | pother tx => simp at hp

end Codemod.PropText

open Codemod.PropText in
/-- Claim C3 (counterexample): a literal whose `properties` key is present
only in shorthand form is not protected by the guard: the transform rewrites
it, so the output text is not byte-identical to the input text, contrary to
the claim's "in any property form, including shorthand". -/
theorem claim_C3_counterexample :
    (([.passign "location" "location: 1", .passign "foo" "foo: 2",
        .pshort "properties"] : List OProp).any
      fun p => getPropertyName p == some "properties") = true
  ∧ transformObjectLiteral "\x7b location: 1, foo: 2, properties \x7d"
      [.passign "location" "location: 1", .passign "foo" "foo: 2", .pshort "properties"]
      ≠ "\x7b location: 1, foo: 2, properties \x7d" := by
  constructor
  · decide
  · decide

open Codemod.PropText in
/-- Claim C3 (amended): a literal containing only allow-listed keys, or
containing a `properties` key in normal property-assignment form (shorthand
does not trigger the guard), or with no properties at all, is returned
byte-identical. -/
theorem claim_C3_amended (origText : String) (props : List OProp)
    (h : onlyTopLevelKeys props = true ∨ hasPropertiesAssignment props = true ∨ props = []) :
    transformObjectLiteral origText props = origText := by
  rcases h with h | h | h
  · have hn := onlyTopLevelKeys_no_nestable props h
    simp [transformObjectLiteral, shouldTransformObjectLiteral, hn]
  · by_cases hs : shouldTransformObjectLiteral props = true <;>
      simp [transformObjectLiteral, hs, h]
  · subst h
    simp [transformObjectLiteral, shouldTransformObjectLiteral, List.isEmpty]

open Codemod.PropText in
/-- Claim C3 (witness): the amended theorem applied to three concrete
literals, one per prong. -/
theorem claim_C3_witness :
    transformObjectLiteral "\x7b location: 1, sku: 2 \x7d"
      [.passign "location" "location: 1", .passign "sku" "sku: 2"]
      = "\x7b location: 1, sku: 2 \x7d"
  ∧ transformObjectLiteral "\x7b location: 1, foo: 2, properties: \x7b\x7d \x7d"
      [.passign "location" "location: 1", .passign "foo" "foo: 2", .passign "properties" "properties: \x7b\x7d"]
      = "\x7b location: 1, foo: 2, properties: \x7b\x7d \x7d"
  ∧ transformObjectLiteral "\x7b\x7d" [] = "\x7b\x7d" :=
  ⟨claim_C3_amended _ _ (Or.inl (by decide)),
   claim_C3_amended _ _ (Or.inr (Or.inl (by decide))),
   claim_C3_amended _ _ (Or.inr (Or.inr rfl))⟩

open Codemod.PropText in
/-- Claim C5: for an eligible literal with a non-empty nested bucket, the
buckets are the order-preserving filters of the input entries, and the
rebuilt text is exactly the allow-listed non-spread entries first, then one
synthesized `properties` entry containing the nested-bucket entries joined
by commas, then the spread entries, each rendered with its own original
source text. -/
theorem claim_C5 (origText : String) (props : List OProp)
    (h1 : shouldTransformObjectLiteral props = true)
    (h2 : hasPropertiesAssignment props = false)
    (h3 : props.filter inNestedBucket ≠ []) :
    categorizeProperties props =
      (props.filter inTopBucket, props.filter inNestedBucket, props.filter isSpreadAssignment)
  ∧ transformObjectLiteral origText props =
      "\x7b\n    " ++ String.intercalate ",\n    "
        ((props.filter inTopBucket).map getText ++
          ["properties: \x7b\n      " ++
            String.intercalate ",\n      " ((props.filter inNestedBucket).map getText) ++
            "\n    \x7d"] ++ (props.filter isSpreadAssignment).map getText) ++ "\n  \x7d" := by
  refine ⟨categorizeProperties_eq_filters props, ?_⟩
  have hne : (props.filter inNestedBucket).isEmpty = false := by
    cases hh : props.filter inNestedBucket with
    | nil => exact absurd hh h3
    | cons a l => rfl
  simp [transformObjectLiteral, h1, h2, categorizeProperties_eq_filters, hne,
    restructureObjectLiteral]

open Codemod.PropText in
/-- Claim C5 (witness): the theorem applied to the concrete literal of the
spec's scenario D, extended with a spread entry. -/
theorem claim_C5_witness :
    transformObjectLiteral
      "\x7b location: 1, managementCluster: 2, ...rest \x7d"
      [.passign "location" "location: 1", .passign "managementCluster" "managementCluster: 2",
       .pspread "...rest"]
      = "\x7b\n    location: 1,\n    properties: \x7b\n      managementCluster: 2\n    \x7d,\n    ...rest\n  \x7d" := by
  have h := claim_C5 "\x7b location: 1, managementCluster: 2, ...rest \x7d"
    [.passign "location" "location: 1", .passign "managementCluster" "managementCluster: 2",
     .pspread "...rest"] (by decide) (by decide) (by decide)
  exact h.2.trans (by decide)

open Codemod.PropText in
/-- Claim C9 (implicit): a non-spread entry with no readable name (a method
declaration, an accessor) lands in no bucket of the categorization, and for
an eligible literal the rebuilt text is produced from the three buckets
alone, so such an entry is silently dropped from the rebuilt literal. -/
theorem claim_C9 (origText : String) (props : List OProp) (p : OProp)
    (hmem : p ∈ props) (hspread : isSpreadAssignment p = false)
    (hname : getPropertyName p = none) :
    (p ∉ (categorizeProperties props).1 ∧ p ∉ (categorizeProperties props).2.1 ∧
      p ∉ (categorizeProperties props).2.2)
  ∧ (shouldTransformObjectLiteral props = true → hasPropertiesAssignment props = false →
      (categorizeProperties props).2.1 ≠ [] →
      transformObjectLiteral origText props =
        restructureObjectLiteral (categorizeProperties props).1
          (categorizeProperties props).2.1 (categorizeProperties props).2.2) := by
  constructor
  · rw [categorizeProperties_eq_filters]
    refine ⟨fun hin => ?_, fun hin => ?_, fun hin => ?_⟩
    · have := (List.mem_filter.mp hin).2
      simp [inTopBucket, hspread, hname] at this
    · have := (List.mem_filter.mp hin).2
      simp [inNestedBucket, hspread, hname] at this
    · have := (List.mem_filter.mp hin).2
      simp [isSpreadAssignment] at this
      cases p <;> simp_all [isSpreadAssignment]
  · intro h1 h2 h3
    have hne : (categorizeProperties props).2.1.isEmpty = false := by
      cases hh : (categorizeProperties props).2.1 with
      | nil => exact absurd hh h3
      | cons a l => rfl
    rcases hc : categorizeProperties props with ⟨t, n, s⟩
    rw [hc] at hne
    simp at hne
    simp [transformObjectLiteral, h1, h2, hc, hne]

open Codemod.PropText in
/-- Claim C9 (witness): the theorem applied to a literal containing a method
declaration; the rebuilt text, evaluated on the instance, omits the method
entirely. -/
theorem claim_C9_witness :
    (OProp.pother "m() \x7b return 1; \x7d" ∉
        (categorizeProperties [.passign "location" "location: 1",
          .pother "m() \x7b return 1; \x7d", .passign "foo" "foo: 2"]).1
      ∧ OProp.pother "m() \x7b return 1; \x7d" ∉
        (categorizeProperties [.passign "location" "location: 1",
          .pother "m() \x7b return 1; \x7d", .passign "foo" "foo: 2"]).2.1
      ∧ OProp.pother "m() \x7b return 1; \x7d" ∉
        (categorizeProperties [.passign "location" "location: 1",
          .pother "m() \x7b return 1; \x7d", .passign "foo" "foo: 2"]).2.2)
  ∧ (shouldTransformObjectLiteral [.passign "location" "location: 1",
        .pother "m() \x7b return 1; \x7d", .passign "foo" "foo: 2"] = true →
      hasPropertiesAssignment [.passign "location" "location: 1",
        .pother "m() \x7b return 1; \x7d", .passign "foo" "foo: 2"] = false →
      (categorizeProperties [.passign "location" "location: 1",
        .pother "m() \x7b return 1; \x7d", .passign "foo" "foo: 2"]).2.1 ≠ [] →
      transformObjectLiteral "orig" [.passign "location" "location: 1",
        .pother "m() \x7b return 1; \x7d", .passign "foo" "foo: 2"] =
        restructureObjectLiteral
          (categorizeProperties [.passign "location" "location: 1",
            .pother "m() \x7b return 1; \x7d", .passign "foo" "foo: 2"]).1
          (categorizeProperties [.passign "location" "location: 1",
            .pother "m() \x7b return 1; \x7d", .passign "foo" "foo: 2"]).2.1
          (categorizeProperties [.passign "location" "location: 1",
            .pother "m() \x7b return 1; \x7d", .passign "foo" "foo: 2"]).2.2) :=
  claim_C9 "orig" _ _ (by decide) (by decide) (by decide)

namespace Codemod.Tree.LROTransform

theorem processExpr_awaitE_skip (e : Expr) (h : isMethodCallShape e = false) :
    processExpr (.awaitE e) = (processExpr e).map .awaitE := by
  apply processExpr.eq_2
  intro t m args he
  subst he
  simp [isMethodCallShape, isPropAccessShape] at h

theorem processStmt_varDecl_awaitE_skip (ci : Bool) (x : String) (e : Expr)
    (h : isMethodCallShape e = false) :
    processStmt ci (.varDecl x (.awaitE e)) =
      (processExpr e).map fun e' => .cons (.varDecl x (.awaitE e')) .nil := by
  apply processStmt.eq_2
  intro t m args he
  subst he
  simp [isMethodCallShape, isPropAccessShape] at h

theorem processStmt_varDecl_skip (ci : Bool) (x : String) (e : Expr)
    (h : isAwaitShape e = false) :
    processStmt ci (.varDecl x e) =
      (processExpr e).map fun e' => .cons (.varDecl x e') .nil := by
  apply processStmt.eq_3
  · intro t m args he
    subst he
    simp [isAwaitShape] at h
  · intro f he
    subst he
    simp [isAwaitShape] at h

mutual
theorem processExpr_awaitFree (e : Expr) (h : containsAwait e = false) :
    processExpr e = some e := by
  cases e with
  | awaitE f => simp [containsAwait] at h
  | call c args =>
    rw [containsAwait, Bool.or_eq_false_iff] at h
    rw [processExpr.eq_3, processExpr_awaitFree c h.1, processArgs_awaitFree args h.2]
  | propAccess t n =>
    rw [containsAwait] at h
    rw [processExpr.eq_4, processExpr_awaitFree t h]
    rfl
  | ident n => rfl
  | objectLit ps =>
    rw [containsAwait] at h
    simp [processExpr, processProps_awaitFree ps h]
  | atom s => rfl

theorem processArgs_awaitFree (args : Args) (h : containsAwaitArgs args = false) :
    processArgs args = some args := by
  cases args with
  | nil => rfl
  | cons a rest =>
    rw [containsAwaitArgs, Bool.or_eq_false_iff] at h
    rw [processArgs, processExpr_awaitFree a h.1, processArgs_awaitFree rest h.2]

theorem processProp_awaitFree (p : PProp) (h : containsAwaitProp p = false) :
    processProp p = some p := by
  cases p with
  | passign n v =>
    rw [containsAwaitProp] at h
    simp [processProp, processExpr_awaitFree v h]
  | pshort n => rfl
  | pspread t => rfl
  | pother t => rfl

theorem processProps_awaitFree (ps : Props) (h : containsAwaitProps ps = false) :
    processProps ps = some ps := by
  cases ps with
  | nil => rfl
  | cons p rest =>
    rw [containsAwaitProps, Bool.or_eq_false_iff] at h
    rw [processProps, processProp_awaitFree p h.1, processProps_awaitFree rest h.2]
end

end Codemod.Tree.LROTransform

namespace Codemod.Tree.LROTransform

theorem processExpr_awaitE_inv (f r : Expr) (h : processExpr (.awaitE f) = some r) :
    ∃ y, r = .awaitE y := by
  cases f with
  | call c args =>
    cases c with
    | propAccess t m =>
      rw [processExpr.eq_1] at h
      split_ifs at h
      · cases hpt : processExpr t with
        | none => rw [hpt] at h; simp at h
        | some t' =>
          cases hpa : processArgs args with
          | none => rw [hpt, hpa] at h; simp at h
          | some args' =>
            rw [hpt, hpa] at h
            simp only [Option.some.injEq] at h
            exact ⟨_, h.symm⟩
      · simp only [Option.some.injEq] at h
        exact ⟨_, h.symm⟩
      · cases hpt : processExpr t with
        | none => rw [hpt] at h; simp at h
        | some t' =>
          cases hpa : processArgs args with
          | none => rw [hpt, hpa] at h; simp at h
          | some args' =>
            rw [hpt, hpa] at h
            simp only [Option.some.injEq] at h
            exact ⟨_, h.symm⟩
      | awaitE g =>
      rw [processExpr_awaitE_skip (.call (.awaitE g) args) rfl] at h
      rw [Option.map_eq_some'] at h
      obtain ⟨y, _, hy⟩ := h
      exact ⟨y, hy.symm⟩
    | call c2 a2 =>
      rw [processExpr_awaitE_skip (.call (.call c2 a2) args) rfl] at h
      rw [Option.map_eq_some'] at h
      obtain ⟨y, _, hy⟩ := h
      exact ⟨y, hy.symm⟩
    | ident n =>
      rw [processExpr_awaitE_skip (.call (.ident n) args) rfl] at h
      rw [Option.map_eq_some'] at h
      obtain ⟨y, _, hy⟩ := h
      exact ⟨y, hy.symm⟩
    | objectLit ps =>
      rw [processExpr_awaitE_skip (.call (.objectLit ps) args) rfl] at h
      rw [Option.map_eq_some'] at h
      obtain ⟨y, _, hy⟩ := h
      exact ⟨y, hy.symm⟩
    | atom s =>
      rw [processExpr_awaitE_skip (.call (.atom s) args) rfl] at h
      rw [Option.map_eq_some'] at h
      obtain ⟨y, _, hy⟩ := h
      exact ⟨y, hy.symm⟩
  | awaitE g =>
    rw [processExpr_awaitE_skip (.awaitE g) rfl] at h
    rw [Option.map_eq_some'] at h
    obtain ⟨y, _, hy⟩ := h
    exact ⟨y, hy.symm⟩
  | propAccess t n =>
    rw [processExpr_awaitE_skip (.propAccess t n) rfl] at h
    rw [Option.map_eq_some'] at h
    obtain ⟨y, _, hy⟩ := h
    exact ⟨y, hy.symm⟩
  | ident n =>
    rw [processExpr_awaitE_skip (.ident n) rfl] at h
    rw [Option.map_eq_some'] at h
    obtain ⟨y, _, hy⟩ := h
    exact ⟨y, hy.symm⟩
  | objectLit ps =>
    rw [processExpr_awaitE_skip (.objectLit ps) rfl] at h
    rw [Option.map_eq_some'] at h
    obtain ⟨y, _, hy⟩ := h
    exact ⟨y, hy.symm⟩
  | atom s =>
    rw [processExpr_awaitE_skip (.atom s) rfl] at h
    rw [Option.map_eq_some'] at h
    obtain ⟨y, _, hy⟩ := h
    exact ⟨y, hy.symm⟩

theorem processExpr_shape (e e' : Expr) (h : processExpr e = some e') :
    isPropAccessShape e' = isPropAccessShape e ∧ isAwaitShape e' = isAwaitShape e ∧
      isMethodCallShape e' = isMethodCallShape e := by
  cases e with
  | awaitE f =>
    obtain ⟨y, rfl⟩ := processExpr_awaitE_inv f e' h
    exact ⟨rfl, rfl, rfl⟩
  | call c args =>
    rw [processExpr.eq_3] at h
    cases hpc : processExpr c with
    | none => rw [hpc] at h; simp at h
    | some c' =>
      cases hpa : processArgs args with
      | none => rw [hpc, hpa] at h; simp at h
      | some args' =>
        rw [hpc, hpa] at h
        simp only [Option.some.injEq] at h
        subst h
        refine ⟨rfl, rfl, ?_⟩
        show isPropAccessShape c' = isPropAccessShape c
        exact (processExpr_shape c c' hpc).1
  | propAccess t n =>
    rw [processExpr.eq_4, Option.map_eq_some'] at h
    obtain ⟨t', _, rfl⟩ := h
    exact ⟨rfl, rfl, rfl⟩
  | ident n =>
    simp only [processExpr, Option.some.injEq] at h
    subst h; exact ⟨rfl, rfl, rfl⟩
  | objectLit ps =>
    simp only [processExpr] at h
    rw [Option.map_eq_some'] at h
    obtain ⟨ps', _, rfl⟩ := h
    exact ⟨rfl, rfl, rfl⟩
  | atom s =>
    simp only [processExpr, Option.some.injEq] at h
    subst h; exact ⟨rfl, rfl, rfl⟩

end Codemod.Tree.LROTransform

namespace Codemod.Tree.LROTransform

set_option maxHeartbeats 2000000 in
mutual
theorem processExpr_fix (e e' : Expr) (hg : goodE e = true) (h : processExpr e = some e') :
    processExpr e' = some e' := by
  cases e with
  | awaitE f =>
    rw [goodE] at hg
    cases f with
    | call c args =>
      cases c with
      | propAccess t m =>
        rw [goodE, Bool.and_eq_true] at hg
        obtain ⟨hgc, hga⟩ := hg
        rw [goodE, Bool.and_eq_true] at hgc
        obtain ⟨hgm, hgt⟩ := hgc
        rw [processExpr.eq_1] at h
        by_cases hb : Codemod.isBeginMethod m = true
        · by_cases hw : Codemod.isAndWaitMethod m = true
          · rw [if_pos hb, if_pos hw] at h
            have hb2 : Codemod.isBeginMethod (Codemod.transformMethodName m) = false := by
              rw [hb, hw] at hgm
              simpa using hgm
            cases hpt : processExpr t with
            | none => rw [hpt] at h; simp at h
            | some t' =>
              cases hpa : processArgs args with
              | none => rw [hpt, hpa] at h; simp at h
              | some args' =>
                rw [hpt, hpa] at h
                simp only [Option.some.injEq] at h
                subst h
                rw [processExpr.eq_1, if_neg (by simp [hb2])]
                rw [processExpr_fix t t' hgt hpt, processArgs_fix args args' hga hpa]
          · rw [if_pos hb, if_neg hw] at h
            by_cases hca : (containsAwait t || containsAwaitArgs args) = true
            · rw [if_pos hca] at h; simp at h
            · rw [if_neg hca] at h
              simp only [Option.some.injEq] at h
              subst h
              simp only [Bool.or_eq_true, not_or, Bool.not_eq_true] at hca
              rw [processExpr.eq_1, if_neg (by decide)]
              have hX : processExpr (.call (.propAccess t (Codemod.transformMethodName m)) args) =
                  some (.call (.propAccess t (Codemod.transformMethodName m)) args) :=
                processExpr_awaitFree _ (by simp [containsAwait, hca.1, hca.2])
              rw [hX, processArgs_awaitFree .nil rfl]
        · rw [if_neg hb] at h
          cases hpt : processExpr t with
          | none => rw [hpt] at h; simp at h
          | some t' =>
            cases hpa : processArgs args with
            | none => rw [hpt, hpa] at h; simp at h
            | some args' =>
              rw [hpt, hpa] at h
              simp only [Option.some.injEq] at h
              subst h
              rw [processExpr.eq_1, if_neg hb]
              rw [processExpr_fix t t' hgt hpt, processArgs_fix args args' hga hpa]
      | awaitE g =>
        rw [processExpr_awaitE_skip (.call (.awaitE g) args) rfl] at h
        rw [Option.map_eq_some'] at h
        obtain ⟨f2, hpf, hy⟩ := h
        subst hy
        have hsh := (processExpr_shape (.call (.awaitE g) args) f2 hpf).2.2
        rw [processExpr_awaitE_skip f2 (hsh.trans rfl)]
        rw [processExpr_fix (.call (.awaitE g) args) f2 hg hpf]
        rfl
      | call c2 a2 =>
        rw [processExpr_awaitE_skip (.call (.call c2 a2) args) rfl] at h
        rw [Option.map_eq_some'] at h
        obtain ⟨f2, hpf, hy⟩ := h
        subst hy
        have hsh := (processExpr_shape (.call (.call c2 a2) args) f2 hpf).2.2
        rw [processExpr_awaitE_skip f2 (hsh.trans rfl)]
        rw [processExpr_fix (.call (.call c2 a2) args) f2 hg hpf]
        rfl
      | ident n =>
        rw [processExpr_awaitE_skip (.call (.ident n) args) rfl] at h
        rw [Option.map_eq_some'] at h
        obtain ⟨f2, hpf, hy⟩ := h
        subst hy
        have hsh := (processExpr_shape (.call (.ident n) args) f2 hpf).2.2
        rw [processExpr_awaitE_skip f2 (hsh.trans rfl)]
        rw [processExpr_fix (.call (.ident n) args) f2 hg hpf]
        rfl
      | objectLit ps =>
        rw [processExpr_awaitE_skip (.call (.objectLit ps) args) rfl] at h
        rw [Option.map_eq_some'] at h
        obtain ⟨f2, hpf, hy⟩ := h
        subst hy
        have hsh := (processExpr_shape (.call (.objectLit ps) args) f2 hpf).2.2
        rw [processExpr_awaitE_skip f2 (hsh.trans rfl)]
        rw [processExpr_fix (.call (.objectLit ps) args) f2 hg hpf]
        rfl
      | atom s =>
        rw [processExpr_awaitE_skip (.call (.atom s) args) rfl] at h
        rw [Option.map_eq_some'] at h
        obtain ⟨f2, hpf, hy⟩ := h
        subst hy
        have hsh := (processExpr_shape (.call (.atom s) args) f2 hpf).2.2
        rw [processExpr_awaitE_skip f2 (hsh.trans rfl)]
        rw [processExpr_fix (.call (.atom s) args) f2 hg hpf]
        rfl
    | awaitE g =>
      rw [processExpr_awaitE_skip (.awaitE g) rfl] at h
      rw [Option.map_eq_some'] at h
      obtain ⟨f2, hpf, hy⟩ := h
      subst hy
      have hsh := (processExpr_shape (.awaitE g) f2 hpf).2.2
      rw [processExpr_awaitE_skip f2 (hsh.trans rfl)]
      rw [processExpr_fix (.awaitE g) f2 hg hpf]
      rfl
    | propAccess t n =>
      rw [processExpr_awaitE_skip (.propAccess t n) rfl] at h
      rw [Option.map_eq_some'] at h
      obtain ⟨f2, hpf, hy⟩ := h
      subst hy
      have hsh := (processExpr_shape (.propAccess t n) f2 hpf).2.2
      rw [processExpr_awaitE_skip f2 (hsh.trans rfl)]
      rw [processExpr_fix (.propAccess t n) f2 hg hpf]
      rfl
    | ident n =>
      rw [processExpr_awaitE_skip (.ident n) rfl] at h
      rw [Option.map_eq_some'] at h
      obtain ⟨f2, hpf, hy⟩ := h
      subst hy
      have hsh := (processExpr_shape (.ident n) f2 hpf).2.2
      rw [processExpr_awaitE_skip f2 (hsh.trans rfl)]
      rw [processExpr_fix (.ident n) f2 hg hpf]
      rfl
    | objectLit ps =>
      rw [processExpr_awaitE_skip (.objectLit ps) rfl] at h
      rw [Option.map_eq_some'] at h
      obtain ⟨f2, hpf, hy⟩ := h
      subst hy
      have hsh := (processExpr_shape (.objectLit ps) f2 hpf).2.2
      rw [processExpr_awaitE_skip f2 (hsh.trans rfl)]
      rw [processExpr_fix (.objectLit ps) f2 hg hpf]
      rfl
    | atom s =>
      rw [processExpr_awaitE_skip (.atom s) rfl] at h
      rw [Option.map_eq_some'] at h
      obtain ⟨f2, hpf, hy⟩ := h
      subst hy
      have hsh := (processExpr_shape (.atom s) f2 hpf).2.2
      rw [processExpr_awaitE_skip f2 (hsh.trans rfl)]
      rw [processExpr_fix (.atom s) f2 hg hpf]
      rfl
  | call c args =>
    rw [goodE, Bool.and_eq_true] at hg
    obtain ⟨hgc, hga⟩ := hg
    rw [processExpr.eq_3] at h
    cases hpc : processExpr c with
    | none => rw [hpc] at h; simp at h
    | some c2 =>
      cases hpa : processArgs args with
      | none => rw [hpc, hpa] at h; simp at h
      | some args' =>
        rw [hpc, hpa] at h
        simp only [Option.some.injEq] at h
        subst h
        rw [processExpr.eq_3, processExpr_fix c c2 hgc hpc, processArgs_fix args args' hga hpa]
  | propAccess t n =>
    rw [goodE, Bool.and_eq_true] at hg
    obtain ⟨_, hgt⟩ := hg
    rw [processExpr.eq_4, Option.map_eq_some'] at h
    obtain ⟨t', hpt, hy⟩ := h
    subst hy
    rw [processExpr.eq_4, processExpr_fix t t' hgt hpt]
    rfl
  | ident n =>
    simp only [processExpr, Option.some.injEq] at h
    subst h
    rfl
  | objectLit ps =>
    rw [goodE] at hg
    simp only [processExpr] at h
    rw [Option.map_eq_some'] at h
    obtain ⟨ps', hpp, hy⟩ := h
    subst hy
    simp only [processExpr]
    rw [processProps_fix ps ps' hg hpp]
    rfl
  | atom s =>
    simp only [processExpr, Option.some.injEq] at h
    subst h
    rfl

theorem processArgs_fix (args args' : Args) (hg : goodArgs args = true)
    (h : processArgs args = some args') : processArgs args' = some args' := by
  cases args with
  | nil =>
    simp only [processArgs, Option.some.injEq] at h
    subst h
    rfl
  | cons a rest =>
    rw [goodArgs, Bool.and_eq_true] at hg
    obtain ⟨hga, hgr⟩ := hg
    rw [processArgs] at h
    cases hpa : processExpr a with
    | none => rw [hpa] at h; simp at h
    | some a2 =>
      cases hpr : processArgs rest with
      | none => rw [hpa, hpr] at h; simp at h
      | some rest' =>
        rw [hpa, hpr] at h
        simp only [Option.some.injEq] at h
        subst h
        rw [processArgs, processExpr_fix a a2 hga hpa, processArgs_fix rest rest' hgr hpr]

theorem processProp_fix (p p' : PProp) (hg : goodProp p = true)
    (h : processProp p = some p') : processProp p' = some p' := by
  cases p with
  | passign n v =>
    rw [goodProp] at hg
    simp only [processProp] at h
    rw [Option.map_eq_some'] at h
    obtain ⟨v', hpv, hy⟩ := h
    subst hy
    simp only [processProp]
    rw [processExpr_fix v v' hg hpv]
    rfl
  | pshort n => simp only [processProp, Option.some.injEq] at h; subst h; rfl
  | pspread t => simp only [processProp, Option.some.injEq] at h; subst h; rfl
  | pother t => simp only [processProp, Option.some.injEq] at h; subst h; rfl

theorem processProps_fix (ps ps' : Props) (hg : goodProps ps = true)
    (h : processProps ps = some ps') : processProps ps' = some ps' := by
  cases ps with
  | nil =>
    simp only [processProps, Option.some.injEq] at h
    subst h
    rfl
  | cons p rest =>
    rw [goodProps, Bool.and_eq_true] at hg
    obtain ⟨hgp, hgr⟩ := hg
    rw [processProps] at h
    cases hpp : processProp p with
    | none => rw [hpp] at h; simp at h
    | some p2 =>
      cases hpr : processProps rest with
      | none => rw [hpp, hpr] at h; simp at h
      | some rest' =>
        rw [hpp, hpr] at h
        simp only [Option.some.injEq] at h
        subst h
        rw [processProps, processProp_fix p p2 hgp hpp, processProps_fix rest rest' hgr hpr]
end

end Codemod.Tree.LROTransform

namespace Codemod.Tree.LROTransform

theorem appendStmts_assoc (a b c : Stmts) :
    appendStmts (appendStmts a b) c = appendStmts a (appendStmts b c) := by
  cases a with
  | nil => rfl
  | cons s rest => rw [appendStmts, appendStmts, appendStmts, appendStmts_assoc rest b c]

theorem processStmts_append (ci : Bool) (a b : Stmts) :
    processStmts ci (appendStmts a b) =
      match processStmts ci a, processStmts ci b with
      | some a', some b' => some (appendStmts a' b')
      | _, _ => none := by
  cases a with
  | nil =>
    rw [appendStmts]
    cases hb : processStmts ci b with
    | none => simp [processStmts, hb]
    | some b' => simp [processStmts, hb, appendStmts]
  | cons s rest =>
    rw [appendStmts, processStmts, processStmts_append ci rest b, processStmts]
    cases hs : processStmt ci s with
    | none => rfl
    | some out =>
      cases hr : processStmts ci rest with
      | none =>
        cases hb : processStmts ci b <;> rfl
      | some rest' =>
        cases hb : processStmts ci b with
        | none => rfl
        | some b' => simp [appendStmts_assoc]

theorem processStmt_submitted (ci : Bool) (x : String) :
    processStmt ci (.exprStmt (.awaitE (.call (.propAccess (.ident x) "submitted") .nil))) =
      some (.cons (.exprStmt (.awaitE (.call (.propAccess (.ident x) "submitted") .nil))) .nil) := rfl

end Codemod.Tree.LROTransform

namespace Codemod.Tree.LROTransform

set_option maxHeartbeats 2000000 in
mutual
theorem processStmt_fix (ci : Bool) (s : Stmt) (out : Stmts) (hg : goodStmt s = true)
    (h : processStmt ci s = some out) : processStmts ci out = some out := by
  cases s with
  | varDecl x e =>
    rw [goodStmt] at hg
    cases e with
    | awaitE f =>
      rw [goodE] at hg
      cases f with
      | call c args =>
        cases c with
        | propAccess t m =>
          rw [goodE, Bool.and_eq_true] at hg
          obtain ⟨hgc, hga⟩ := hg
          rw [goodE, Bool.and_eq_true] at hgc
          obtain ⟨hgm, hgt⟩ := hgc
          rw [processStmt.eq_1] at h
          by_cases hb : Codemod.isBeginMethod m = true
          · by_cases hw : Codemod.isAndWaitMethod m = true
            · rw [if_pos hb, if_pos hw] at h
              have hb2 : Codemod.isBeginMethod (Codemod.transformMethodName m) = false := by
                rw [hb, hw] at hgm
                simpa using hgm
              cases hpt : processExpr t with
              | none => rw [hpt] at h; simp at h
              | some t' =>
                cases hpa : processArgs args with
                | none => rw [hpt, hpa] at h; simp at h
                | some args' =>
                  rw [hpt, hpa] at h
                  simp only [Option.some.injEq] at h
                  subst h
                  rw [processStmts, processStmt.eq_1, if_neg (by simp [hb2])]
                  rw [processExpr_fix t t' hgt hpt, processArgs_fix args args' hga hpa]
                  rfl
            · rw [if_pos hb, if_neg hw] at h
              by_cases hca : (containsAwait t || containsAwaitArgs args) = true
              · rw [if_pos hca] at h; simp at h
              · rw [if_neg hca] at h
                simp only [Bool.or_eq_true, not_or, Bool.not_eq_true] at hca
                have hbare : processExpr (.call (.propAccess t (Codemod.transformMethodName m)) args) =
                    some (.call (.propAccess t (Codemod.transformMethodName m)) args) :=
                  processExpr_awaitFree _ (by simp [containsAwait, hca.1, hca.2])
                cases hci : ci with
                | true =>
                  rw [hci] at h
                  rw [if_pos rfl] at h
                  simp only [Option.some.injEq] at h
                  subst h
                  rw [processStmts, processStmt_varDecl_skip true x
                    (.call (.propAccess t (Codemod.transformMethodName m)) args) rfl, hbare]
                  rw [processStmts, processStmt_submitted true x]
                  rw [processStmts]
                  rfl
                | false =>
                  rw [hci] at h
                  rw [if_neg Bool.false_ne_true] at h
                  simp only [Option.some.injEq] at h
                  subst h
                  rw [processStmts, processStmt_varDecl_skip false x
                    (.call (.propAccess t (Codemod.transformMethodName m)) args) rfl, hbare]
                  rw [processStmts]
                  rfl
          · rw [if_neg hb] at h
            cases hpt : processExpr t with
            | none => rw [hpt] at h; simp at h
            | some t' =>
              cases hpa : processArgs args with
              | none => rw [hpt, hpa] at h; simp at h
              | some args' =>
                rw [hpt, hpa] at h
                simp only [Option.some.injEq] at h
                subst h
                rw [processStmts, processStmt.eq_1, if_neg hb]
                rw [processExpr_fix t t' hgt hpt, processArgs_fix args args' hga hpa]
                rfl
        | awaitE g =>
        rw [processStmt_varDecl_awaitE_skip ci x (.call (.awaitE g) args) rfl] at h
        rw [Option.map_eq_some'] at h
        obtain ⟨f2, hpf, hy⟩ := h
        subst hy
        have hsh := (processExpr_shape (.call (.awaitE g) args) f2 hpf).2.2
        rw [processStmts, processStmt_varDecl_awaitE_skip ci x f2 (hsh.trans rfl)]
        rw [processExpr_fix (.call (.awaitE g) args) f2 hg hpf]
        rfl
        | call c2 a2 =>
        rw [processStmt_varDecl_awaitE_skip ci x (.call (.call c2 a2) args) rfl] at h
        rw [Option.map_eq_some'] at h
        obtain ⟨f2, hpf, hy⟩ := h
        subst hy
        have hsh := (processExpr_shape (.call (.call c2 a2) args) f2 hpf).2.2
        rw [processStmts, processStmt_varDecl_awaitE_skip ci x f2 (hsh.trans rfl)]
        rw [processExpr_fix (.call (.call c2 a2) args) f2 hg hpf]
        rfl
        | ident n =>
        rw [processStmt_varDecl_awaitE_skip ci x (.call (.ident n) args) rfl] at h
        rw [Option.map_eq_some'] at h
        obtain ⟨f2, hpf, hy⟩ := h
        subst hy
        have hsh := (processExpr_shape (.call (.ident n) args) f2 hpf).2.2
        rw [processStmts, processStmt_varDecl_awaitE_skip ci x f2 (hsh.trans rfl)]
        rw [processExpr_fix (.call (.ident n) args) f2 hg hpf]
        rfl
        | objectLit ps =>
        rw [processStmt_varDecl_awaitE_skip ci x (.call (.objectLit ps) args) rfl] at h
        rw [Option.map_eq_some'] at h
        obtain ⟨f2, hpf, hy⟩ := h
        subst hy
        have hsh := (processExpr_shape (.call (.objectLit ps) args) f2 hpf).2.2
        rw [processStmts, processStmt_varDecl_awaitE_skip ci x f2 (hsh.trans rfl)]
        rw [processExpr_fix (.call (.objectLit ps) args) f2 hg hpf]
        rfl
        | atom s2 =>
        rw [processStmt_varDecl_awaitE_skip ci x (.call (.atom s2) args) rfl] at h
        rw [Option.map_eq_some'] at h
        obtain ⟨f2, hpf, hy⟩ := h
        subst hy
        have hsh := (processExpr_shape (.call (.atom s2) args) f2 hpf).2.2
        rw [processStmts, processStmt_varDecl_awaitE_skip ci x f2 (hsh.trans rfl)]
        rw [processExpr_fix (.call (.atom s2) args) f2 hg hpf]
        rfl
      | awaitE g =>
      rw [processStmt_varDecl_awaitE_skip ci x (.awaitE g) rfl] at h
      rw [Option.map_eq_some'] at h
      obtain ⟨f2, hpf, hy⟩ := h
      subst hy
      have hsh := (processExpr_shape (.awaitE g) f2 hpf).2.2
      rw [processStmts, processStmt_varDecl_awaitE_skip ci x f2 (hsh.trans rfl)]
      rw [processExpr_fix (.awaitE g) f2 hg hpf]
      rfl
      | propAccess t n =>
      rw [processStmt_varDecl_awaitE_skip ci x (.propAccess t n) rfl] at h
      rw [Option.map_eq_some'] at h
      obtain ⟨f2, hpf, hy⟩ := h
      subst hy
      have hsh := (processExpr_shape (.propAccess t n) f2 hpf).2.2
      rw [processStmts, processStmt_varDecl_awaitE_skip ci x f2 (hsh.trans rfl)]
      rw [processExpr_fix (.propAccess t n) f2 hg hpf]
      rfl
      | ident n =>
      rw [processStmt_varDecl_awaitE_skip ci x (.ident n) rfl] at h
      rw [Option.map_eq_some'] at h
      obtain ⟨f2, hpf, hy⟩ := h
      subst hy
      have hsh := (processExpr_shape (.ident n) f2 hpf).2.2
      rw [processStmts, processStmt_varDecl_awaitE_skip ci x f2 (hsh.trans rfl)]
      rw [processExpr_fix (.ident n) f2 hg hpf]
      rfl
      | objectLit ps =>
      rw [processStmt_varDecl_awaitE_skip ci x (.objectLit ps) rfl] at h
      rw [Option.map_eq_some'] at h
      obtain ⟨f2, hpf, hy⟩ := h
      subst hy
      have hsh := (processExpr_shape (.objectLit ps) f2 hpf).2.2
      rw [processStmts, processStmt_varDecl_awaitE_skip ci x f2 (hsh.trans rfl)]
      rw [processExpr_fix (.objectLit ps) f2 hg hpf]
      rfl
      | atom s2 =>
      rw [processStmt_varDecl_awaitE_skip ci x (.atom s2) rfl] at h
      rw [Option.map_eq_some'] at h
      obtain ⟨f2, hpf, hy⟩ := h
      subst hy
      have hsh := (processExpr_shape (.atom s2) f2 hpf).2.2
      rw [processStmts, processStmt_varDecl_awaitE_skip ci x f2 (hsh.trans rfl)]
      rw [processExpr_fix (.atom s2) f2 hg hpf]
      rfl
    | call c args =>
      rw [processStmt_varDecl_skip ci x (.call c args) rfl] at h
      rw [Option.map_eq_some'] at h
      obtain ⟨e2, hpe, hy⟩ := h
      subst hy
      have hsh := (processExpr_shape (.call c args) e2 hpe).2.1
      rw [processStmts, processStmt_varDecl_skip ci x e2 (hsh.trans rfl)]
      rw [processExpr_fix (.call c args) e2 hg hpe]
      rfl
    | propAccess t n =>
      rw [processStmt_varDecl_skip ci x (.propAccess t n) rfl] at h
      rw [Option.map_eq_some'] at h
      obtain ⟨e2, hpe, hy⟩ := h
      subst hy
      have hsh := (processExpr_shape (.propAccess t n) e2 hpe).2.1
      rw [processStmts, processStmt_varDecl_skip ci x e2 (hsh.trans rfl)]
      rw [processExpr_fix (.propAccess t n) e2 hg hpe]
      rfl
    | ident n =>
      rw [processStmt_varDecl_skip ci x (.ident n) rfl] at h
      rw [Option.map_eq_some'] at h
      obtain ⟨e2, hpe, hy⟩ := h
      subst hy
      have hsh := (processExpr_shape (.ident n) e2 hpe).2.1
      rw [processStmts, processStmt_varDecl_skip ci x e2 (hsh.trans rfl)]
      rw [processExpr_fix (.ident n) e2 hg hpe]
      rfl
    | objectLit ps =>
      rw [processStmt_varDecl_skip ci x (.objectLit ps) rfl] at h
      rw [Option.map_eq_some'] at h
      obtain ⟨e2, hpe, hy⟩ := h
      subst hy
      have hsh := (processExpr_shape (.objectLit ps) e2 hpe).2.1
      rw [processStmts, processStmt_varDecl_skip ci x e2 (hsh.trans rfl)]
      rw [processExpr_fix (.objectLit ps) e2 hg hpe]
      rfl
    | atom s2 =>
      rw [processStmt_varDecl_skip ci x (.atom s2) rfl] at h
      rw [Option.map_eq_some'] at h
      obtain ⟨e2, hpe, hy⟩ := h
      subst hy
      have hsh := (processExpr_shape (.atom s2) e2 hpe).2.1
      rw [processStmts, processStmt_varDecl_skip ci x e2 (hsh.trans rfl)]
      rw [processExpr_fix (.atom s2) e2 hg hpe]
      rfl
  | exprStmt e =>
    rw [goodStmt] at hg
    rw [processStmt.eq_4, Option.map_eq_some'] at h
    obtain ⟨e2, hpe, hy⟩ := h
    subst hy
    rw [processStmts, processStmt.eq_4, processExpr_fix e e2 hg hpe]
    rfl
  | block ss =>
    rw [goodStmt] at hg
    rw [processStmt, Option.map_eq_some'] at h
    obtain ⟨ss1, hps, hy⟩ := h
    subst hy
    rw [processStmts, processStmt, processStmts_fix true ss ss1 hg hps]
    rfl
  | caseClause ss =>
    rw [goodStmt] at hg
    rw [processStmt, Option.map_eq_some'] at h
    obtain ⟨ss1, hps, hy⟩ := h
    subst hy
    rw [processStmts, processStmt, processStmts_fix false ss ss1 hg hps]
    rfl

theorem processStmts_fix (ci : Bool) (ss ss' : Stmts) (hg : goodStmts ss = true)
    (h : processStmts ci ss = some ss') : processStmts ci ss' = some ss' := by
  cases ss with
  | nil =>
    simp only [processStmts, Option.some.injEq] at h
    subst h
    rfl
  | cons s rest =>
    rw [goodStmts, Bool.and_eq_true] at hg
    obtain ⟨hgs, hgr⟩ := hg
    rw [processStmts] at h
    cases hps : processStmt ci s with
    | none => rw [hps] at h; simp at h
    | some out =>
      cases hpr : processStmts ci rest with
      | none => rw [hps, hpr] at h; simp at h
      | some rest' =>
        rw [hps, hpr] at h
        simp only [Option.some.injEq] at h
        subst h
        rw [processStmts_append ci out rest']
        rw [processStmt_fix ci s out hgs hps, processStmts_fix ci rest rest' hgr hpr]
end

end Codemod.Tree.LROTransform

namespace Codemod.Tree.LROTransform

mutual
theorem processExpr_noNested (e : Expr) (h : noNestedE e = true) :
    ∃ e', processExpr e = some e' := by
  cases e with
  | awaitE f =>
    rw [noNestedE, Bool.not_eq_true'] at h
    cases f with
    | call c args =>
      cases c with
      | propAccess t m =>
        simp only [containsAwait, Bool.or_eq_false_iff] at h
        rw [processExpr.eq_1]
        by_cases hb : Codemod.isBeginMethod m = true
        · by_cases hw : Codemod.isAndWaitMethod m = true
          · rw [if_pos hb, if_pos hw, processExpr_awaitFree t h.1, processArgs_awaitFree args h.2]
            exact ⟨_, rfl⟩
          · rw [if_pos hb, if_neg hw, if_neg (by simp [h.1, h.2])]
            exact ⟨_, rfl⟩
        · rw [if_neg hb, processExpr_awaitFree t h.1, processArgs_awaitFree args h.2]
          exact ⟨_, rfl⟩
      | awaitE g =>
        rw [processExpr_awaitE_skip (.call (.awaitE g) args) rfl, processExpr_awaitFree (.call (.awaitE g) args) h]
        exact ⟨_, rfl⟩
      | call c2 a2 =>
        rw [processExpr_awaitE_skip (.call (.call c2 a2) args) rfl, processExpr_awaitFree (.call (.call c2 a2) args) h]
        exact ⟨_, rfl⟩
      | ident n =>
        rw [processExpr_awaitE_skip (.call (.ident n) args) rfl, processExpr_awaitFree (.call (.ident n) args) h]
        exact ⟨_, rfl⟩
      | objectLit ps =>
        rw [processExpr_awaitE_skip (.call (.objectLit ps) args) rfl, processExpr_awaitFree (.call (.objectLit ps) args) h]
        exact ⟨_, rfl⟩
      | atom s =>
        rw [processExpr_awaitE_skip (.call (.atom s) args) rfl, processExpr_awaitFree (.call (.atom s) args) h]
        exact ⟨_, rfl⟩
    | awaitE g =>
      rw [processExpr_awaitE_skip (.awaitE g) rfl, processExpr_awaitFree (.awaitE g) h]
      exact ⟨_, rfl⟩
    | propAccess t n =>
      rw [processExpr_awaitE_skip (.propAccess t n) rfl, processExpr_awaitFree (.propAccess t n) h]
      exact ⟨_, rfl⟩
    | ident n =>
      rw [processExpr_awaitE_skip (.ident n) rfl, processExpr_awaitFree (.ident n) h]
      exact ⟨_, rfl⟩
    | objectLit ps =>
      rw [processExpr_awaitE_skip (.objectLit ps) rfl, processExpr_awaitFree (.objectLit ps) h]
      exact ⟨_, rfl⟩
    | atom s =>
      rw [processExpr_awaitE_skip (.atom s) rfl, processExpr_awaitFree (.atom s) h]
      exact ⟨_, rfl⟩
  | call c args =>
    rw [noNestedE, Bool.and_eq_true] at h
    obtain ⟨e2, he⟩ := processExpr_noNested c h.1
    obtain ⟨args2, ha⟩ := processArgs_noNested args h.2
    rw [processExpr.eq_3, he, ha]
    exact ⟨_, rfl⟩
  | propAccess t n =>
    rw [noNestedE] at h
    obtain ⟨t2, ht⟩ := processExpr_noNested t h
    rw [processExpr.eq_4, ht]
    exact ⟨_, rfl⟩
  | ident n => exact ⟨_, rfl⟩
  | objectLit ps =>
    rw [noNestedE] at h
    obtain ⟨ps2, hp⟩ := processProps_noNested ps h
    simp only [processExpr]
    rw [hp]
    exact ⟨_, rfl⟩
  | atom s => exact ⟨_, rfl⟩

theorem processArgs_noNested (args : Args) (h : noNestedArgs args = true) :
    ∃ args', processArgs args = some args' := by
  cases args with
  | nil => exact ⟨_, rfl⟩
  | cons a rest =>
    rw [noNestedArgs, Bool.and_eq_true] at h
    obtain ⟨a2, ha⟩ := processExpr_noNested a h.1
    obtain ⟨rest2, hr⟩ := processArgs_noNested rest h.2
    rw [processArgs, ha, hr]
    exact ⟨_, rfl⟩

theorem processProp_noNested (p : PProp) (h : noNestedProp p = true) :
    ∃ p', processProp p = some p' := by
  cases p with
  | passign n v =>
    rw [noNestedProp] at h
    obtain ⟨v2, hv⟩ := processExpr_noNested v h
    simp only [processProp]
    rw [hv]
    exact ⟨_, rfl⟩
  | pshort n => exact ⟨_, rfl⟩
  | pspread t => exact ⟨_, rfl⟩
  | pother t => exact ⟨_, rfl⟩

theorem processProps_noNested (ps : Props) (h : noNestedProps ps = true) :
    ∃ ps', processProps ps = some ps' := by
  cases ps with
  | nil => exact ⟨_, rfl⟩
  | cons p rest =>
    rw [noNestedProps, Bool.and_eq_true] at h
    obtain ⟨p2, hp⟩ := processProp_noNested p h.1
    obtain ⟨rest2, hr⟩ := processProps_noNested rest h.2
    rw [processProps, hp, hr]
    exact ⟨_, rfl⟩
end

mutual
theorem processStmt_noNested (ci : Bool) (s : Stmt) (h : noNestedStmt s = true) :
    ∃ out, processStmt ci s = some out := by
  cases s with
  | varDecl x e =>
    rw [noNestedStmt] at h
    cases e with
    | awaitE f =>
      rw [noNestedE, Bool.not_eq_true'] at h
      cases f with
      | call c args =>
        cases c with
        | propAccess t m =>
          simp only [containsAwait, Bool.or_eq_false_iff] at h
          rw [processStmt.eq_1]
          by_cases hb : Codemod.isBeginMethod m = true
          · by_cases hw : Codemod.isAndWaitMethod m = true
            · rw [if_pos hb, if_pos hw, processExpr_awaitFree t h.1,
                processArgs_awaitFree args h.2]
              exact ⟨_, rfl⟩
            · rw [if_pos hb, if_neg hw, if_neg (by simp [h.1, h.2])]
              cases ci with
              | true => exact ⟨_, rfl⟩
              | false => exact ⟨_, rfl⟩
          · rw [if_neg hb, processExpr_awaitFree t h.1, processArgs_awaitFree args h.2]
            exact ⟨_, rfl⟩
        | awaitE g =>
          rw [processStmt_varDecl_awaitE_skip ci x (.call (.awaitE g) args) rfl,
            processExpr_awaitFree (.call (.awaitE g) args) h]
          exact ⟨_, rfl⟩
        | call c2 a2 =>
          rw [processStmt_varDecl_awaitE_skip ci x (.call (.call c2 a2) args) rfl,
            processExpr_awaitFree (.call (.call c2 a2) args) h]
          exact ⟨_, rfl⟩
        | ident n =>
          rw [processStmt_varDecl_awaitE_skip ci x (.call (.ident n) args) rfl,
            processExpr_awaitFree (.call (.ident n) args) h]
          exact ⟨_, rfl⟩
        | objectLit ps =>
          rw [processStmt_varDecl_awaitE_skip ci x (.call (.objectLit ps) args) rfl,
            processExpr_awaitFree (.call (.objectLit ps) args) h]
          exact ⟨_, rfl⟩
        | atom s2 =>
          rw [processStmt_varDecl_awaitE_skip ci x (.call (.atom s2) args) rfl,
            processExpr_awaitFree (.call (.atom s2) args) h]
          exact ⟨_, rfl⟩
      | awaitE g =>
        rw [processStmt_varDecl_awaitE_skip ci x (.awaitE g) rfl,
          processExpr_awaitFree (.awaitE g) h]
        exact ⟨_, rfl⟩
      | propAccess t n =>
        rw [processStmt_varDecl_awaitE_skip ci x (.propAccess t n) rfl,
          processExpr_awaitFree (.propAccess t n) h]
        exact ⟨_, rfl⟩
      | ident n =>
        rw [processStmt_varDecl_awaitE_skip ci x (.ident n) rfl,
          processExpr_awaitFree (.ident n) h]
        exact ⟨_, rfl⟩
      | objectLit ps =>
        rw [processStmt_varDecl_awaitE_skip ci x (.objectLit ps) rfl,
          processExpr_awaitFree (.objectLit ps) h]
        exact ⟨_, rfl⟩
      | atom s2 =>
        rw [processStmt_varDecl_awaitE_skip ci x (.atom s2) rfl,
          processExpr_awaitFree (.atom s2) h]
        exact ⟨_, rfl⟩
    | call c args =>
      obtain ⟨e2, he⟩ := processExpr_noNested (.call c args) h
      rw [processStmt_varDecl_skip ci x (.call c args) rfl, he]
      exact ⟨_, rfl⟩
    | propAccess t n =>
      obtain ⟨e2, he⟩ := processExpr_noNested (.propAccess t n) h
      rw [processStmt_varDecl_skip ci x (.propAccess t n) rfl, he]
      exact ⟨_, rfl⟩
    | ident n =>
      obtain ⟨e2, he⟩ := processExpr_noNested (.ident n) h
      rw [processStmt_varDecl_skip ci x (.ident n) rfl, he]
      exact ⟨_, rfl⟩
    | objectLit ps =>
      obtain ⟨e2, he⟩ := processExpr_noNested (.objectLit ps) h
      rw [processStmt_varDecl_skip ci x (.objectLit ps) rfl, he]
      exact ⟨_, rfl⟩
    | atom s2 =>
      obtain ⟨e2, he⟩ := processExpr_noNested (.atom s2) h
      rw [processStmt_varDecl_skip ci x (.atom s2) rfl, he]
      exact ⟨_, rfl⟩
  | exprStmt e =>
    rw [noNestedStmt] at h
    obtain ⟨e2, he⟩ := processExpr_noNested e h
    rw [processStmt.eq_4, he]
    exact ⟨_, rfl⟩
  | block ss =>
    rw [noNestedStmt] at h
    obtain ⟨ss2, hs⟩ := processStmts_noNested true ss h
    rw [processStmt, hs]
    exact ⟨_, rfl⟩
  | caseClause ss =>
    rw [noNestedStmt] at h
    obtain ⟨ss2, hs⟩ := processStmts_noNested false ss h
    rw [processStmt, hs]
    exact ⟨_, rfl⟩

theorem processStmts_noNested (ci : Bool) (ss : Stmts) (h : noNestedStmts ss = true) :
    ∃ ss', processStmts ci ss = some ss' := by
  cases ss with
  | nil => exact ⟨_, rfl⟩
  | cons s rest =>
    rw [noNestedStmts, Bool.and_eq_true] at h
    obtain ⟨out, ho⟩ := processStmt_noNested ci s h.1
    obtain ⟨rest2, hr⟩ := processStmts_noNested ci rest h.2
    rw [processStmts, ho, hr]
    exact ⟨_, rfl⟩
end

end Codemod.Tree.LROTransform

namespace Codemod.Tree.PropertyNestingTransform

theorem visitProps_append (a b : Props) :
    visitProps (appendProps a b) = appendProps (visitProps a) (visitProps b) := by
  cases a with
  | nil => rfl
  | cons p rest => rw [appendProps, visitProps, visitProps, appendProps, visitProps_append rest b]

theorem hasNestableProp_append (a b : Props) :
    hasNestableProp (appendProps a b) = (hasNestableProp a || hasNestableProp b) := by
  cases a with
  | nil => rfl
  | cons p rest =>
    rw [appendProps, hasNestableProp, hasNestableProp, hasNestableProp_append rest b,
      Bool.or_assoc]

theorem hasNestable_top_bucket (ps : Props) :
    hasNestableProp (categorizeProperties ps).1 = false := by
  cases ps with
  | nil => rfl
  | cons p rest =>
    have ih := hasNestable_top_bucket rest
    rcases hc : categorizeProperties rest with ⟨t, n, s⟩
    rw [hc] at ih
    by_cases hsp : isSpreadAssignment p = true
    · simp only [categorizeProperties, hc, if_pos hsp]
      exact ih
    · cases hnm : getPropertyName p with
      | none => simp only [categorizeProperties, hc, if_neg hsp, hnm]; exact ih
      | some nm =>
        by_cases htl : Codemod.isTopLevelName nm = true
        · simp only [categorizeProperties, hc, if_neg hsp, hnm, if_pos htl]
          rw [hasNestableProp]
          simp [hnm, htl, ih]
        · simp only [categorizeProperties, hc, if_neg hsp, hnm, if_neg htl]
          exact ih

theorem hasTop_nested_bucket (ps : Props) :
    hasTopLevelProp (categorizeProperties ps).2.1 = false := by
  cases ps with
  | nil => rfl
  | cons p rest =>
    have ih := hasTop_nested_bucket rest
    rcases hc : categorizeProperties rest with ⟨t, n, s⟩
    rw [hc] at ih
    by_cases hsp : isSpreadAssignment p = true
    · simp only [categorizeProperties, hc, if_pos hsp]
      exact ih
    · cases hnm : getPropertyName p with
      | none => simp only [categorizeProperties, hc, if_neg hsp, hnm]; exact ih
      | some nm =>
        by_cases htl : Codemod.isTopLevelName nm = true
        · simp only [categorizeProperties, hc, if_neg hsp, hnm, if_pos htl]
          exact ih
        · simp only [categorizeProperties, hc, if_neg hsp, hnm, if_neg htl]
          rw [hasTopLevelProp]
          simp [hnm, htl, ih]

theorem hasNestable_spread_bucket (ps : Props) :
    hasNestableProp (categorizeProperties ps).2.2 = false := by
  cases ps with
  | nil => rfl
  | cons p rest =>
    have ih := hasNestable_spread_bucket rest
    rcases hc : categorizeProperties rest with ⟨t, n, s⟩
    rw [hc] at ih
    by_cases hsp : isSpreadAssignment p = true
    · simp only [categorizeProperties, hc, if_pos hsp]
      rw [hasNestableProp]
      simp only [hsp, Bool.not_true, Bool.false_and, Bool.false_or]
      exact ih
    · cases hnm : getPropertyName p with
      | none => simp only [categorizeProperties, hc, if_neg hsp, hnm]; exact ih
      | some nm =>
        by_cases htl : Codemod.isTopLevelName nm = true
        · simp only [categorizeProperties, hc, if_neg hsp, hnm, if_pos htl]
          exact ih
        · simp only [categorizeProperties, hc, if_neg hsp, hnm, if_neg htl]
          exact ih

theorem restructure_not_should (t n s : Props)
    (ht : hasNestableProp t = false) (hs : hasNestableProp s = false) :
    shouldTransformObjectLiteral (restructureObjectLiteral t n s) = false := by
  rw [shouldTransformObjectLiteral]
  have hn : hasNestableProp (restructureObjectLiteral t n s) = false := by
    rw [restructureObjectLiteral, hasNestableProp_append, ht]
    rw [hasNestableProp]
    simp only [getPropertyName, isSpreadAssignment]
    simp [hs]
  rw [hn, Bool.and_false]

theorem nested_not_should (n : Props) (h : hasTopLevelProp n = false) :
    shouldTransformObjectLiteral n = false := by
  rw [shouldTransformObjectLiteral, h, Bool.and_false, Bool.false_and]

theorem categorize_visit_fixed (ps : Props) (h : visitProps ps = ps) :
    visitProps (categorizeProperties ps).1 = (categorizeProperties ps).1 ∧
      visitProps (categorizeProperties ps).2.1 = (categorizeProperties ps).2.1 ∧
      visitProps (categorizeProperties ps).2.2 = (categorizeProperties ps).2.2 := by
  cases ps with
  | nil => exact ⟨rfl, rfl, rfl⟩
  | cons p rest =>
    rw [visitProps] at h
    rw [Props.cons.injEq] at h
    obtain ⟨hp, hrest⟩ := h
    have ih := categorize_visit_fixed rest hrest
    rcases hc : categorizeProperties rest with ⟨t, n, s⟩
    rw [hc] at ih
    by_cases hsp : isSpreadAssignment p = true
    · simp only [categorizeProperties, hc, if_pos hsp]
      refine ⟨ih.1, ih.2.1, ?_⟩
      rw [visitProps, hp, ih.2.2]
    · cases hnm : getPropertyName p with
      | none => simp only [categorizeProperties, hc, if_neg hsp, hnm]; exact ih
      | some nm =>
        by_cases htl : Codemod.isTopLevelName nm = true
        · simp only [categorizeProperties, hc, if_neg hsp, hnm, if_pos htl]
          refine ⟨?_, ih.2.1, ih.2.2⟩
          rw [visitProps, hp, ih.1]
        · simp only [categorizeProperties, hc, if_neg hsp, hnm, if_neg htl]
          refine ⟨ih.1, ?_, ih.2.2⟩
          rw [visitProps, hp, ih.2.1]

theorem visit_transformObjectLiteral (qs : Props) (hq : visitProps qs = qs) :
    visitExpr (transformObjectLiteral qs) = transformObjectLiteral qs := by
  by_cases h1 : shouldTransformObjectLiteral qs = true
  · by_cases h2 : hasPropertiesAssignment qs = true
    · rw [transformObjectLiteral, if_neg (by simp [h1]), if_pos h2, visitExpr, hq,
        transformObjectLiteral, if_neg (by simp [h1]), if_pos h2]
    · rcases hc : categorizeProperties qs with ⟨t, n, s⟩
      have hbuckets := categorize_visit_fixed qs hq
      have hnest := hasTop_nested_bucket qs
      have htopb := hasNestable_top_bucket qs
      have hspb := hasNestable_spread_bucket qs
      rw [hc] at hbuckets hnest htopb hspb
      simp only at hbuckets hnest htopb hspb
      by_cases h3 : propsIsEmpty n = true
      · rw [transformObjectLiteral, if_neg (by simp [h1]), if_neg h2]
        simp only [hc, h3, if_true]
        rw [visitExpr, hq, transformObjectLiteral, if_neg (by simp [h1]), if_neg h2]
        simp only [hc, h3, if_true]
      · rw [transformObjectLiteral, if_neg (by simp [h1]), if_neg h2]
        simp only [hc, h3, Bool.false_eq_true, if_false]
        have hfixR : visitProps (restructureObjectLiteral t n s) =
            restructureObjectLiteral t n s := by
          rw [restructureObjectLiteral, visitProps_append, hbuckets.1, visitProps, visitProp,
            visitExpr, hbuckets.2.1, transformObjectLiteral,
            if_pos (by simp [nested_not_should n hnest])]
          rw [hbuckets.2.2]
        rw [visitExpr, hfixR, transformObjectLiteral,
          if_pos (by simp [restructure_not_should t n s htopb hspb])]
  · have h1' : shouldTransformObjectLiteral qs = false := by simpa using h1
    rw [transformObjectLiteral, if_pos (by simp [h1']), visitExpr, hq,
      transformObjectLiteral, if_pos (by simp [h1'])]

mutual
theorem visitExpr_idem (e : Expr) : visitExpr (visitExpr e) = visitExpr e := by
  cases e with
  | awaitE f => rw [visitExpr, visitExpr, visitExpr_idem f]
  | call c args => rw [visitExpr, visitExpr, visitExpr_idem c, visitArgs_idem args]
  | propAccess t n => rw [visitExpr, visitExpr, visitExpr_idem t]
  | ident n => rfl
  | objectLit ps =>
    rw [visitExpr]
    exact visit_transformObjectLiteral (visitProps ps) (visitProps_idem ps)
  | atom s => rfl

theorem visitArgs_idem (args : Args) : visitArgs (visitArgs args) = visitArgs args := by
  cases args with
  | nil => rfl
  | cons a rest => rw [visitArgs, visitArgs, visitExpr_idem a, visitArgs_idem rest]

theorem visitProp_idem (p : PProp) : visitProp (visitProp p) = visitProp p := by
  cases p with
  | passign n v => rw [visitProp, visitProp, visitExpr_idem v]
  | pshort n => rfl
  | pspread t => rfl
  | pother t => rfl

theorem visitProps_idem (ps : Props) : visitProps (visitProps ps) = visitProps ps := by
  cases ps with
  | nil => rfl
  | cons p rest => rw [visitProps, visitProps, visitProp_idem p, visitProps_idem rest]
end

mutual
theorem visitStmt_idem (s : Stmt) : visitStmt (visitStmt s) = visitStmt s := by
  cases s with
  | varDecl x e => rw [visitStmt, visitStmt, visitExpr_idem e]
  | exprStmt e => rw [visitStmt, visitStmt, visitExpr_idem e]
  | block ss => rw [visitStmt, visitStmt, visitStmts_idem ss]
  | caseClause ss => rw [visitStmt, visitStmt, visitStmts_idem ss]

theorem visitStmts_idem (ss : Stmts) : visitStmts (visitStmts ss) = visitStmts ss := by
  cases ss with
  | nil => rfl
  | cons s rest => rw [visitStmts, visitStmts, visitStmt_idem s, visitStmts_idem rest]
end

theorem transform_idem (file : Stmts) : transform (transform file) = transform file :=
  visitStmts_idem file

end Codemod.Tree.PropertyNestingTransform

namespace Codemod.Tree.PropertyNestingTransform

theorem goodProps_append (a b : Props) :
    goodProps (appendProps a b) = (goodProps a && goodProps b) := by
  cases a with
  | nil => rfl
  | cons p rest =>
    rw [appendProps, goodProps, goodProps, goodProps_append rest b, Bool.and_assoc]

theorem categorize_good (ps : Props) (h : goodProps ps = true) :
    goodProps (categorizeProperties ps).1 = true ∧
      goodProps (categorizeProperties ps).2.1 = true ∧
      goodProps (categorizeProperties ps).2.2 = true := by
  cases ps with
  | nil => exact ⟨rfl, rfl, rfl⟩
  | cons p rest =>
    rw [goodProps, Bool.and_eq_true] at h
    have ih := categorize_good rest h.2
    rcases hc : categorizeProperties rest with ⟨t, n, s⟩
    rw [hc] at ih
    simp only at ih
    by_cases hsp : isSpreadAssignment p = true
    · simp only [categorizeProperties, hc, if_pos hsp]
      exact ⟨ih.1, ih.2.1, by rw [goodProps, h.1, ih.2.2]; rfl⟩
    · cases hnm : getPropertyName p with
      | none => simp only [categorizeProperties, hc, if_neg hsp, hnm]; exact ih
      | some nm =>
        by_cases htl : Codemod.isTopLevelName nm = true
        · simp only [categorizeProperties, hc, if_neg hsp, hnm, if_pos htl]
          exact ⟨by rw [goodProps, h.1, ih.1]; rfl, ih.2.1, ih.2.2⟩
        · simp only [categorizeProperties, hc, if_neg hsp, hnm, if_neg htl]
          exact ⟨ih.1, by rw [goodProps, h.1, ih.2.1]; rfl, ih.2.2⟩

theorem good_transformObjectLiteral (qs : Props) (h : goodProps qs = true) :
    goodE (transformObjectLiteral qs) = true := by
  by_cases h1 : shouldTransformObjectLiteral qs = true
  · by_cases h2 : hasPropertiesAssignment qs = true
    · rw [transformObjectLiteral, if_neg (by simp [h1]), if_pos h2, goodE]
      exact h
    · rcases hc : categorizeProperties qs with ⟨t, n, s⟩
      have hgb := categorize_good qs h
      rw [hc] at hgb
      simp only at hgb
      by_cases h3 : propsIsEmpty n = true
      · rw [transformObjectLiteral, if_neg (by simp [h1]), if_neg h2]
        simp only [hc, h3, if_true]
        exact h
      · rw [transformObjectLiteral, if_neg (by simp [h1]), if_neg h2]
        simp only [hc, h3, Bool.false_eq_true, if_false]
        rw [goodE, restructureObjectLiteral, goodProps_append, hgb.1]
        rw [goodProps, goodProp, goodE, hgb.2.1, hgb.2.2]
        rfl
  · have h1' : shouldTransformObjectLiteral qs = false := by simpa using h1
    rw [transformObjectLiteral, if_pos (by simp [h1']), goodE]
    exact h

mutual
theorem visitExpr_good (e : Expr) (h : goodE e = true) : goodE (visitExpr e) = true := by
  cases e with
  | awaitE f =>
    rw [goodE] at h
    rw [visitExpr, goodE]
    exact visitExpr_good f h
  | call c args =>
    rw [goodE, Bool.and_eq_true] at h
    rw [visitExpr, goodE, visitExpr_good c h.1, visitArgs_good args h.2]
    rfl
  | propAccess t n =>
    rw [goodE, Bool.and_eq_true] at h
    rw [visitExpr, goodE, h.1, visitExpr_good t h.2]
    rfl
  | ident n => rfl
  | objectLit ps =>
    rw [goodE] at h
    rw [visitExpr]
    exact good_transformObjectLiteral (visitProps ps) (visitProps_good ps h)
  | atom s => rfl

theorem visitArgs_good (args : Args) (h : goodArgs args = true) :
    goodArgs (visitArgs args) = true := by
  cases args with
  | nil => rfl
  | cons a rest =>
    rw [goodArgs, Bool.and_eq_true] at h
    rw [visitArgs, goodArgs, visitExpr_good a h.1, visitArgs_good rest h.2]
    rfl

theorem visitProp_good (p : PProp) (h : goodProp p = true) : goodProp (visitProp p) = true := by
  cases p with
  | passign n v =>
    rw [goodProp] at h
    rw [visitProp, goodProp]
    exact visitExpr_good v h
  | pshort n => rfl
  | pspread t => rfl
  | pother t => rfl

theorem visitProps_good (ps : Props) (h : goodProps ps = true) :
    goodProps (visitProps ps) = true := by
  cases ps with
  | nil => rfl
  | cons p rest =>
    rw [goodProps, Bool.and_eq_true] at h
    rw [visitProps, goodProps, visitProp_good p h.1, visitProps_good rest h.2]
    rfl
end

mutual
theorem visitStmt_good (s : Stmt) (h : goodStmt s = true) : goodStmt (visitStmt s) = true := by
  cases s with
  | varDecl x e =>
    rw [goodStmt] at h
    rw [visitStmt, goodStmt]
    exact visitExpr_good e h
  | exprStmt e =>
    rw [goodStmt] at h
    rw [visitStmt, goodStmt]
    exact visitExpr_good e h
  | block ss =>
    rw [goodStmt] at h
    rw [visitStmt, goodStmt]
    exact visitStmts_good ss h
  | caseClause ss =>
    rw [goodStmt] at h
    rw [visitStmt, goodStmt]
    exact visitStmts_good ss h

theorem visitStmts_good (ss : Stmts) (h : goodStmts ss = true) :
    goodStmts (visitStmts ss) = true := by
  cases ss with
  | nil => rfl
  | cons s rest =>
    rw [goodStmts, Bool.and_eq_true] at h
    rw [visitStmts, goodStmts, visitStmt_good s h.1, visitStmts_good rest h.2]
    rfl
end

theorem visitStmts_append (a b : Stmts) :
    visitStmts (appendStmts a b) = appendStmts (visitStmts a) (visitStmts b) := by
  cases a with
  | nil => rfl
  | cons s rest => rw [appendStmts, visitStmts, visitStmts, appendStmts, visitStmts_append rest b]

end Codemod.Tree.PropertyNestingTransform

namespace Codemod.Tree.LROTransform

theorem processProp_flags (p p2 : PProp) (h : processProp p = some p2) :
    PropertyNestingTransform.isSpreadAssignment p2 =
        PropertyNestingTransform.isSpreadAssignment p ∧
      PropertyNestingTransform.getPropertyName p2 =
        PropertyNestingTransform.getPropertyName p ∧
      PropertyNestingTransform.isPropertiesAssignment p2 =
        PropertyNestingTransform.isPropertiesAssignment p := by
  cases p with
  | passign n v =>
    simp only [processProp] at h
    rw [Option.map_eq_some'] at h
    obtain ⟨v2, _, hy⟩ := h
    subst hy
    exact ⟨rfl, rfl, rfl⟩
  | pshort n => simp only [processProp, Option.some.injEq] at h; subst h; exact ⟨rfl, rfl, rfl⟩
  | pspread t => simp only [processProp, Option.some.injEq] at h; subst h; exact ⟨rfl, rfl, rfl⟩
  | pother t => simp only [processProp, Option.some.injEq] at h; subst h; exact ⟨rfl, rfl, rfl⟩

theorem processProps_shape (ps ps' : Props) (h : processProps ps = some ps') :
    PropertyNestingTransform.hasTopLevelProp ps' =
        PropertyNestingTransform.hasTopLevelProp ps ∧
      PropertyNestingTransform.hasNestableProp ps' =
        PropertyNestingTransform.hasNestableProp ps ∧
      PropertyNestingTransform.hasPropertiesAssignment ps' =
        PropertyNestingTransform.hasPropertiesAssignment ps ∧
      PropertyNestingTransform.propsIsEmpty ps' = PropertyNestingTransform.propsIsEmpty ps ∧
      PropertyNestingTransform.propsIsEmpty
          (PropertyNestingTransform.categorizeProperties ps').2.1 =
        PropertyNestingTransform.propsIsEmpty
          (PropertyNestingTransform.categorizeProperties ps).2.1 := by
  cases ps with
  | nil =>
    simp only [processProps, Option.some.injEq] at h
    subst h
    exact ⟨rfl, rfl, rfl, rfl, rfl⟩
  | cons p rest =>
    rw [processProps] at h
    cases hpp : processProp p with
    | none => rw [hpp] at h; simp at h
    | some p2 =>
      cases hpr : processProps rest with
      | none => rw [hpp, hpr] at h; simp at h
      | some rest2 =>
        rw [hpp, hpr] at h
        simp only [Option.some.injEq] at h
        subst h
        have hf := processProp_flags p p2 hpp
        have ih := processProps_shape rest rest2 hpr
        refine ⟨?_, ?_, ?_, rfl, ?_⟩
        · rw [PropertyNestingTransform.hasTopLevelProp, hf.1, hf.2.1, ih.1,
            PropertyNestingTransform.hasTopLevelProp]
        · rw [PropertyNestingTransform.hasNestableProp, hf.1, hf.2.1, ih.2.1,
            PropertyNestingTransform.hasNestableProp]
        · rw [PropertyNestingTransform.hasPropertiesAssignment, hf.2.2, ih.2.2.1,
            PropertyNestingTransform.hasPropertiesAssignment]
        · rcases hc : PropertyNestingTransform.categorizeProperties rest with ⟨t, n, s⟩
          rcases hc2 : PropertyNestingTransform.categorizeProperties rest2 with ⟨t2, n2, s2⟩
          have ihn := ih.2.2.2.2
          rw [hc, hc2] at ihn
          simp only at ihn
          by_cases hsp : PropertyNestingTransform.isSpreadAssignment p = true
          · simp only [PropertyNestingTransform.categorizeProperties, hc, hc2, if_pos hsp,
              if_pos (hf.1.trans hsp)]
            exact ihn
          · have hsp2 : PropertyNestingTransform.isSpreadAssignment p2 = true → False := by
              rw [hf.1]; exact hsp
            cases hnm : PropertyNestingTransform.getPropertyName p with
            | none =>
              simp only [PropertyNestingTransform.categorizeProperties, hc, hc2, if_neg hsp,
                if_neg hsp2, hnm, hf.2.1]
              exact ihn
            | some nm =>
              by_cases htl : Codemod.isTopLevelName nm = true
              · simp only [PropertyNestingTransform.categorizeProperties, hc, hc2, if_neg hsp,
                  if_neg hsp2, hnm, hf.2.1, if_pos htl]
                exact ihn
              · simp only [PropertyNestingTransform.categorizeProperties, hc, hc2, if_neg hsp,
                  if_neg hsp2, hnm, hf.2.1, if_neg htl]
                rfl

theorem processProps_shouldTransform (ps ps' : Props) (h : processProps ps = some ps') :
    PropertyNestingTransform.shouldTransformObjectLiteral ps' =
      PropertyNestingTransform.shouldTransformObjectLiteral ps := by
  have hs := processProps_shape ps ps' h
  rw [PropertyNestingTransform.shouldTransformObjectLiteral, hs.1, hs.2.1, hs.2.2.2.1,
    PropertyNestingTransform.shouldTransformObjectLiteral]

end Codemod.Tree.LROTransform

namespace Codemod.Tree.LROTransform

open Codemod.Tree.PropertyNestingTransform in
set_option maxHeartbeats 2000000 in
mutual
theorem processExpr_visitFix (e e' : Expr) (hv : visitExpr e = e)
    (h : processExpr e = some e') : visitExpr e' = e' := by
  cases e with
  | awaitE f =>
    cases f with
    | call c args =>
      cases c with
      | propAccess t m =>
        rw [visitExpr, visitExpr, visitExpr, Expr.awaitE.injEq, Expr.call.injEq,
          Expr.propAccess.injEq] at hv
        obtain ⟨⟨hvt, -⟩, hva⟩ := hv
        rw [processExpr.eq_1] at h
        by_cases hb : Codemod.isBeginMethod m = true
        · by_cases hw : Codemod.isAndWaitMethod m = true
          · rw [if_pos hb, if_pos hw] at h
            cases hpt : processExpr t with
            | none => rw [hpt] at h; simp at h
            | some t' =>
              cases hpa : processArgs args with
              | none => rw [hpt, hpa] at h; simp at h
              | some args' =>
                rw [hpt, hpa] at h
                simp only [Option.some.injEq] at h
                subst h
                rw [visitExpr, visitExpr, visitExpr,
                  processExpr_visitFix t t' hvt hpt, processArgsVisitFix args args' hva hpa]
          · rw [if_pos hb, if_neg hw] at h
            by_cases hca : (containsAwait t || containsAwaitArgs args) = true
            · rw [if_pos hca] at h; simp at h
            · rw [if_neg hca] at h
              simp only [Option.some.injEq] at h
              subst h
              simp only [visitExpr, visitArgs, hvt, hva]
        · rw [if_neg hb] at h
          cases hpt : processExpr t with
          | none => rw [hpt] at h; simp at h
          | some t' =>
            cases hpa : processArgs args with
            | none => rw [hpt, hpa] at h; simp at h
            | some args' =>
              rw [hpt, hpa] at h
              simp only [Option.some.injEq] at h
              subst h
              rw [visitExpr, visitExpr, visitExpr,
                processExpr_visitFix t t' hvt hpt, processArgsVisitFix args args' hva hpa]
        | awaitE g =>
      rw [processExpr_awaitE_skip (.call (.awaitE g) args) rfl] at h
      rw [Option.map_eq_some'] at h
      obtain ⟨f2, hpf, hy⟩ := h
      subst hy
      rw [visitExpr, Expr.awaitE.injEq] at hv
      rw [visitExpr, processExpr_visitFix (.call (.awaitE g) args) f2 hv hpf]
        | call c2 a2 =>
      rw [processExpr_awaitE_skip (.call (.call c2 a2) args) rfl] at h
      rw [Option.map_eq_some'] at h
      obtain ⟨f2, hpf, hy⟩ := h
      subst hy
      rw [visitExpr, Expr.awaitE.injEq] at hv
      rw [visitExpr, processExpr_visitFix (.call (.call c2 a2) args) f2 hv hpf]
        | ident n =>
      rw [processExpr_awaitE_skip (.call (.ident n) args) rfl] at h
      rw [Option.map_eq_some'] at h
      obtain ⟨f2, hpf, hy⟩ := h
      subst hy
      rw [visitExpr, Expr.awaitE.injEq] at hv
      rw [visitExpr, processExpr_visitFix (.call (.ident n) args) f2 hv hpf]
        | objectLit ps =>
      rw [processExpr_awaitE_skip (.call (.objectLit ps) args) rfl] at h
      rw [Option.map_eq_some'] at h
      obtain ⟨f2, hpf, hy⟩ := h
      subst hy
      rw [visitExpr, Expr.awaitE.injEq] at hv
      rw [visitExpr, processExpr_visitFix (.call (.objectLit ps) args) f2 hv hpf]
        | atom s =>
      rw [processExpr_awaitE_skip (.call (.atom s) args) rfl] at h
      rw [Option.map_eq_some'] at h
      obtain ⟨f2, hpf, hy⟩ := h
      subst hy
      rw [visitExpr, Expr.awaitE.injEq] at hv
      rw [visitExpr, processExpr_visitFix (.call (.atom s) args) f2 hv hpf]
    | awaitE g =>
      rw [processExpr_awaitE_skip (.awaitE g) rfl] at h
      rw [Option.map_eq_some'] at h
      obtain ⟨f2, hpf, hy⟩ := h
      subst hy
      rw [visitExpr, Expr.awaitE.injEq] at hv
      rw [visitExpr, processExpr_visitFix (.awaitE g) f2 hv hpf]
    | propAccess t n =>
      rw [processExpr_awaitE_skip (.propAccess t n) rfl] at h
      rw [Option.map_eq_some'] at h
      obtain ⟨f2, hpf, hy⟩ := h
      subst hy
      rw [visitExpr, Expr.awaitE.injEq] at hv
      rw [visitExpr, processExpr_visitFix (.propAccess t n) f2 hv hpf]
    | ident n =>
      rw [processExpr_awaitE_skip (.ident n) rfl] at h
      rw [Option.map_eq_some'] at h
      obtain ⟨f2, hpf, hy⟩ := h
      subst hy
      rw [visitExpr, Expr.awaitE.injEq] at hv
      rw [visitExpr, processExpr_visitFix (.ident n) f2 hv hpf]
    | objectLit ps =>
      rw [processExpr_awaitE_skip (.objectLit ps) rfl] at h
      rw [Option.map_eq_some'] at h
      obtain ⟨f2, hpf, hy⟩ := h
      subst hy
      rw [visitExpr, Expr.awaitE.injEq] at hv
      rw [visitExpr, processExpr_visitFix (.objectLit ps) f2 hv hpf]
    | atom s =>
      rw [processExpr_awaitE_skip (.atom s) rfl] at h
      rw [Option.map_eq_some'] at h
      obtain ⟨f2, hpf, hy⟩ := h
      subst hy
      rw [visitExpr, Expr.awaitE.injEq] at hv
      rw [visitExpr, processExpr_visitFix (.atom s) f2 hv hpf]
  | call c args =>
    rw [visitExpr, Expr.call.injEq] at hv
    rw [processExpr.eq_3] at h
    cases hpc : processExpr c with
    | none => rw [hpc] at h; simp at h
    | some c2 =>
      cases hpa : processArgs args with
      | none => rw [hpc, hpa] at h; simp at h
      | some args' =>
        rw [hpc, hpa] at h
        simp only [Option.some.injEq] at h
        subst h
        rw [visitExpr, processExpr_visitFix c c2 hv.1 hpc,
          processArgsVisitFix args args' hv.2 hpa]
  | propAccess t n =>
    rw [visitExpr, Expr.propAccess.injEq] at hv
    rw [processExpr.eq_4, Option.map_eq_some'] at h
    obtain ⟨t', hpt, hy⟩ := h
    subst hy
    rw [visitExpr, processExpr_visitFix t t' hv.1 hpt]
  | ident n =>
    simp only [processExpr, Option.some.injEq] at h
    subst h
    rfl
  | objectLit ps =>
    rw [visitExpr] at hv
    simp only [processExpr] at h
    rw [Option.map_eq_some'] at h
    obtain ⟨ps', hpp, hy⟩ := h
    subst hy
    have hshape := processProps_shape ps ps' hpp
    have hshould := processProps_shouldTransform ps ps' hpp
    have hqfix : visitProps (visitProps ps) = visitProps ps := visitProps_idem ps
    by_cases h1 : shouldTransformObjectLiteral (visitProps ps) = true
    · by_cases h2 : hasPropertiesAssignment (visitProps ps) = true
      · rw [transformObjectLiteral, if_neg (by simp [h1]), if_pos h2,
          Expr.objectLit.injEq] at hv
        have hvps' : visitProps ps' = ps' :=
          processPropsVisitFix ps ps' hv hpp
        rw [hv] at h1 h2
        rw [visitExpr, hvps', transformObjectLiteral,
          if_neg (by simp [hshould, h1]), if_pos (by rw [hshape.2.2.1]; exact h2)]
      · rcases hc : categorizeProperties (visitProps ps) with ⟨t, n, s⟩
        have hbuckets := categorize_visit_fixed (visitProps ps) hqfix
        have hnest := hasTop_nested_bucket (visitProps ps)
        have htopb := hasNestable_top_bucket (visitProps ps)
        have hspb := hasNestable_spread_bucket (visitProps ps)
        rw [hc] at hbuckets hnest htopb hspb
        simp only at hbuckets hnest htopb hspb
        by_cases h3 : propsIsEmpty n = true
        · rw [transformObjectLiteral, if_neg (by simp [h1]), if_neg h2] at hv
          simp only [hc, h3, if_true, Expr.objectLit.injEq] at hv
          have hvps' : visitProps ps' = ps' :=
            processPropsVisitFix ps ps' hv hpp
          rw [visitExpr, hvps', transformObjectLiteral]
          rw [hv] at h1 h2 hc
          rw [if_neg (by simp [hshould, h1])]
          rw [if_neg (by rw [hshape.2.2.1]; exact h2)]
          rcases hc2 : categorizeProperties ps' with ⟨t2, n2, s2⟩
          have hn2 : propsIsEmpty n2 = true := by
            have := hshape.2.2.2.2
            rw [hc2, hc] at this
            simp only at this
            rw [this]
            exact h3
          simp only [hc2, hn2, if_true]
        · rw [transformObjectLiteral, if_neg (by simp [h1]), if_neg h2] at hv
          simp only [hc, h3, Bool.false_eq_true, if_false, Expr.objectLit.injEq] at hv
          have hfixR : visitProps (restructureObjectLiteral t n s) =
              restructureObjectLiteral t n s := by
            rw [restructureObjectLiteral, visitProps_append, hbuckets.1, visitProps, visitProp,
              visitExpr, hbuckets.2.1, transformObjectLiteral,
              if_pos (by simp [nested_not_should n hnest])]
            rw [hbuckets.2.2]
          have hvps : visitProps ps = ps := by
            rw [← hv]
            exact hfixR
          have hvps' : visitProps ps' = ps' :=
            processPropsVisitFix ps ps' hvps hpp
          have hpsn : shouldTransformObjectLiteral ps = false := by
            rw [← hv]
            exact restructure_not_should t n s htopb hspb
          rw [visitExpr, hvps', transformObjectLiteral,
            if_pos (by simp [hshould, hpsn])]
    · have h1' : shouldTransformObjectLiteral (visitProps ps) = false := by simpa using h1
      rw [transformObjectLiteral, if_pos (by simp [h1']), Expr.objectLit.injEq] at hv
      have hvps' : visitProps ps' = ps' :=
        processPropsVisitFix ps ps' hv hpp
      rw [hv] at h1'
      rw [visitExpr, hvps', transformObjectLiteral, if_pos (by simp [hshould, h1'])]
  | atom s =>
    simp only [processExpr, Option.some.injEq] at h
    subst h
    rfl

theorem processArgsVisitFix (args args' : Args) (hv : visitArgs args = args)
    (h : processArgs args = some args') : visitArgs args' = args' := by
  cases args with
  | nil =>
    simp only [processArgs, Option.some.injEq] at h
    subst h
    rfl
  | cons a rest =>
    rw [visitArgs, Args.cons.injEq] at hv
    rw [processArgs] at h
    cases hpa : processExpr a with
    | none => rw [hpa] at h; simp at h
    | some a2 =>
      cases hpr : processArgs rest with
      | none => rw [hpa, hpr] at h; simp at h
      | some rest' =>
        rw [hpa, hpr] at h
        simp only [Option.some.injEq] at h
        subst h
        rw [visitArgs, processExpr_visitFix a a2 hv.1 hpa,
          processArgsVisitFix rest rest' hv.2 hpr]

theorem processPropVisitFix (p p' : PProp) (hv : visitProp p = p)
    (h : processProp p = some p') : visitProp p' = p' := by
  cases p with
  | passign n v =>
    rw [visitProp, PProp.passign.injEq] at hv
    simp only [processProp] at h
    rw [Option.map_eq_some'] at h
    obtain ⟨v', hpv, hy⟩ := h
    subst hy
    rw [visitProp, processExpr_visitFix v v' hv.2 hpv]
  | pshort n => simp only [processProp, Option.some.injEq] at h; subst h; rfl
  | pspread t => simp only [processProp, Option.some.injEq] at h; subst h; rfl
  | pother t => simp only [processProp, Option.some.injEq] at h; subst h; rfl

theorem processPropsVisitFix (ps ps' : Props) (hv : visitProps ps = ps)
    (h : processProps ps = some ps') : visitProps ps' = ps' := by
  cases ps with
  | nil =>
    simp only [processProps, Option.some.injEq] at h
    subst h
    rfl
  | cons p rest =>
    rw [visitProps, Props.cons.injEq] at hv
    rw [processProps] at h
    cases hpp : processProp p with
    | none => rw [hpp] at h; simp at h
    | some p2 =>
      cases hpr : processProps rest with
      | none => rw [hpp, hpr] at h; simp at h
      | some rest' =>
        rw [hpp, hpr] at h
        simp only [Option.some.injEq] at h
        subst h
        rw [visitProps, processPropVisitFix p p2 hv.1 hpp,
          processPropsVisitFix rest rest' hv.2 hpr]
end

end Codemod.Tree.LROTransform

namespace Codemod.Tree.LROTransform

open Codemod.Tree.PropertyNestingTransform in
set_option maxHeartbeats 2000000 in
mutual
theorem processStmt_visitFix (ci : Bool) (s : Stmt) (out : Stmts) (hv : visitStmt s = s)
    (h : processStmt ci s = some out) : visitStmts out = out := by
  cases s with
  | varDecl x e =>
    rw [visitStmt, Stmt.varDecl.injEq] at hv
    replace hv := hv.2
    cases e with
    | awaitE f =>
      cases f with
      | call c args =>
        cases c with
        | propAccess t m =>
          rw [visitExpr, visitExpr, visitExpr, Expr.awaitE.injEq, Expr.call.injEq,
            Expr.propAccess.injEq] at hv
          obtain ⟨⟨hvt, -⟩, hva⟩ := hv
          rw [processStmt.eq_1] at h
          by_cases hb : Codemod.isBeginMethod m = true
          · by_cases hw : Codemod.isAndWaitMethod m = true
            · rw [if_pos hb, if_pos hw] at h
              cases hpt : processExpr t with
              | none => rw [hpt] at h; simp at h
              | some t' =>
                cases hpa : processArgs args with
                | none => rw [hpt, hpa] at h; simp at h
                | some args' =>
                  rw [hpt, hpa] at h
                  simp only [Option.some.injEq] at h
                  subst h
                  rw [visitStmts, visitStmt, visitExpr, visitExpr, visitExpr,
                    processExpr_visitFix t t' hvt hpt, processArgsVisitFix args args' hva hpa,
                    visitStmts]
            · rw [if_pos hb, if_neg hw] at h
              by_cases hca : (containsAwait t || containsAwaitArgs args) = true
              · rw [if_pos hca] at h; simp at h
              · rw [if_neg hca] at h
                cases hci : ci with
                | true =>
                  rw [hci] at h
                  rw [if_pos rfl] at h
                  simp only [Option.some.injEq] at h
                  subst h
                  rw [visitStmts, visitStmt]
                  simp only [visitExpr, visitArgs, hvt, hva]
                  rw [visitStmts, visitStmt]
                  simp only [visitExpr, visitArgs]
                  rw [visitStmts]
                | false =>
                  rw [hci] at h
                  rw [if_neg Bool.false_ne_true] at h
                  simp only [Option.some.injEq] at h
                  subst h
                  rw [visitStmts, visitStmt]
                  simp only [visitExpr, visitArgs, hvt, hva]
                  rw [visitStmts]
          · rw [if_neg hb] at h
            cases hpt : processExpr t with
            | none => rw [hpt] at h; simp at h
            | some t' =>
              cases hpa : processArgs args with
              | none => rw [hpt, hpa] at h; simp at h
              | some args' =>
                rw [hpt, hpa] at h
                simp only [Option.some.injEq] at h
                subst h
                rw [visitStmts, visitStmt, visitExpr, visitExpr, visitExpr,
                  processExpr_visitFix t t' hvt hpt, processArgsVisitFix args args' hva hpa,
                  visitStmts]
        | awaitE g =>
        rw [processStmt_varDecl_awaitE_skip ci x (.call (.awaitE g) args) rfl] at h
        rw [Option.map_eq_some'] at h
        obtain ⟨f2, hpf, hy⟩ := h
        subst hy
        rw [visitExpr, Expr.awaitE.injEq] at hv
        rw [visitStmts, visitStmt, visitExpr, processExpr_visitFix (.call (.awaitE g) args) f2 hv hpf, visitStmts]
        | call c2 a2 =>
        rw [processStmt_varDecl_awaitE_skip ci x (.call (.call c2 a2) args) rfl] at h
        rw [Option.map_eq_some'] at h
        obtain ⟨f2, hpf, hy⟩ := h
        subst hy
        rw [visitExpr, Expr.awaitE.injEq] at hv
        rw [visitStmts, visitStmt, visitExpr, processExpr_visitFix (.call (.call c2 a2) args) f2 hv hpf, visitStmts]
        | ident n =>
        rw [processStmt_varDecl_awaitE_skip ci x (.call (.ident n) args) rfl] at h
        rw [Option.map_eq_some'] at h
        obtain ⟨f2, hpf, hy⟩ := h
        subst hy
        rw [visitExpr, Expr.awaitE.injEq] at hv
        rw [visitStmts, visitStmt, visitExpr, processExpr_visitFix (.call (.ident n) args) f2 hv hpf, visitStmts]
        | objectLit ps =>
        rw [processStmt_varDecl_awaitE_skip ci x (.call (.objectLit ps) args) rfl] at h
        rw [Option.map_eq_some'] at h
        obtain ⟨f2, hpf, hy⟩ := h
        subst hy
        rw [visitExpr, Expr.awaitE.injEq] at hv
        rw [visitStmts, visitStmt, visitExpr, processExpr_visitFix (.call (.objectLit ps) args) f2 hv hpf, visitStmts]
        | atom s2 =>
        rw [processStmt_varDecl_awaitE_skip ci x (.call (.atom s2) args) rfl] at h
        rw [Option.map_eq_some'] at h
        obtain ⟨f2, hpf, hy⟩ := h
        subst hy
        rw [visitExpr, Expr.awaitE.injEq] at hv
        rw [visitStmts, visitStmt, visitExpr, processExpr_visitFix (.call (.atom s2) args) f2 hv hpf, visitStmts]
      | awaitE g =>
      rw [processStmt_varDecl_awaitE_skip ci x (.awaitE g) rfl] at h
      rw [Option.map_eq_some'] at h
      obtain ⟨f2, hpf, hy⟩ := h
      subst hy
      rw [visitExpr, Expr.awaitE.injEq] at hv
      rw [visitStmts, visitStmt, visitExpr, processExpr_visitFix (.awaitE g) f2 hv hpf, visitStmts]
      | propAccess t n =>
      rw [processStmt_varDecl_awaitE_skip ci x (.propAccess t n) rfl] at h
      rw [Option.map_eq_some'] at h
      obtain ⟨f2, hpf, hy⟩ := h
      subst hy
      rw [visitExpr, Expr.awaitE.injEq] at hv
      rw [visitStmts, visitStmt, visitExpr, processExpr_visitFix (.propAccess t n) f2 hv hpf, visitStmts]
      | ident n =>
      rw [processStmt_varDecl_awaitE_skip ci x (.ident n) rfl] at h
      rw [Option.map_eq_some'] at h
      obtain ⟨f2, hpf, hy⟩ := h
      subst hy
      rw [visitExpr, Expr.awaitE.injEq] at hv
      rw [visitStmts, visitStmt, visitExpr, processExpr_visitFix (.ident n) f2 hv hpf, visitStmts]
      | objectLit ps =>
      rw [processStmt_varDecl_awaitE_skip ci x (.objectLit ps) rfl] at h
      rw [Option.map_eq_some'] at h
      obtain ⟨f2, hpf, hy⟩ := h
      subst hy
      rw [visitExpr, Expr.awaitE.injEq] at hv
      rw [visitStmts, visitStmt, visitExpr, processExpr_visitFix (.objectLit ps) f2 hv hpf, visitStmts]
      | atom s2 =>
      rw [processStmt_varDecl_awaitE_skip ci x (.atom s2) rfl] at h
      rw [Option.map_eq_some'] at h
      obtain ⟨f2, hpf, hy⟩ := h
      subst hy
      rw [visitExpr, Expr.awaitE.injEq] at hv
      rw [visitStmts, visitStmt, visitExpr, processExpr_visitFix (.atom s2) f2 hv hpf, visitStmts]
    | call c args =>
      rw [processStmt_varDecl_skip ci x (.call c args) rfl] at h
      rw [Option.map_eq_some'] at h
      obtain ⟨e2, hpe, hy⟩ := h
      subst hy
      rw [visitStmts, visitStmt, processExpr_visitFix (.call c args) e2 hv hpe, visitStmts]
    | propAccess t n =>
      rw [processStmt_varDecl_skip ci x (.propAccess t n) rfl] at h
      rw [Option.map_eq_some'] at h
      obtain ⟨e2, hpe, hy⟩ := h
      subst hy
      rw [visitStmts, visitStmt, processExpr_visitFix (.propAccess t n) e2 hv hpe, visitStmts]
    | ident n =>
      rw [processStmt_varDecl_skip ci x (.ident n) rfl] at h
      rw [Option.map_eq_some'] at h
      obtain ⟨e2, hpe, hy⟩ := h
      subst hy
      rw [visitStmts, visitStmt, processExpr_visitFix (.ident n) e2 hv hpe, visitStmts]
    | objectLit ps =>
      rw [processStmt_varDecl_skip ci x (.objectLit ps) rfl] at h
      rw [Option.map_eq_some'] at h
      obtain ⟨e2, hpe, hy⟩ := h
      subst hy
      rw [visitStmts, visitStmt, processExpr_visitFix (.objectLit ps) e2 hv hpe, visitStmts]
    | atom s2 =>
      rw [processStmt_varDecl_skip ci x (.atom s2) rfl] at h
      rw [Option.map_eq_some'] at h
      obtain ⟨e2, hpe, hy⟩ := h
      subst hy
      rw [visitStmts, visitStmt, processExpr_visitFix (.atom s2) e2 hv hpe, visitStmts]
  | exprStmt e =>
    rw [visitStmt, Stmt.exprStmt.injEq] at hv
    rw [processStmt.eq_4, Option.map_eq_some'] at h
    obtain ⟨e2, hpe, hy⟩ := h
    subst hy
    rw [visitStmts, visitStmt, processExpr_visitFix e e2 hv hpe, visitStmts]
  | block ss =>
    rw [visitStmt, Stmt.block.injEq] at hv
    rw [processStmt, Option.map_eq_some'] at h
    obtain ⟨ss1, hps, hy⟩ := h
    subst hy
    rw [visitStmts, visitStmt, processStmts_visitFix true ss ss1 hv hps, visitStmts]
  | caseClause ss =>
    rw [visitStmt, Stmt.caseClause.injEq] at hv
    rw [processStmt, Option.map_eq_some'] at h
    obtain ⟨ss1, hps, hy⟩ := h
    subst hy
    rw [visitStmts, visitStmt, processStmts_visitFix false ss ss1 hv hps, visitStmts]

theorem processStmts_visitFix (ci : Bool) (ss ss' : Stmts) (hv : visitStmts ss = ss)
    (h : processStmts ci ss = some ss') : visitStmts ss' = ss' := by
  cases ss with
  | nil =>
    simp only [processStmts, Option.some.injEq] at h
    subst h
    rfl
  | cons s rest =>
    rw [visitStmts, Stmts.cons.injEq] at hv
    rw [processStmts] at h
    cases hps : processStmt ci s with
    | none => rw [hps] at h; simp at h
    | some out =>
      cases hpr : processStmts ci rest with
      | none => rw [hps, hpr] at h; simp at h
      | some rest' =>
        rw [hps, hpr] at h
        simp only [Option.some.injEq] at h
        subst h
        rw [visitStmts_append, processStmt_visitFix ci s out hv.1 hps,
          processStmts_visitFix ci rest rest' hv.2 hpr]
end

end Codemod.Tree.LROTransform

namespace Codemod

theorem isBeginMethod_iff (m : String) :
    isBeginMethod m = true ↔
      ∃ c rest, m.data = "begin".data ++ c :: rest ∧ c.isUpper = true := by
  rw [isBeginMethod]
  constructor
  · intro h
    simp only [Bool.and_eq_true, decide_eq_true_eq] at h
    obtain ⟨⟨hpre, hlen⟩, hmatch⟩ := h
    rw [List.isPrefixOf_iff_prefix] at hpre
    obtain ⟨tail, ht⟩ := hpre
    have hdrop : m.data.drop 5 = tail := by
      rw [← ht]
      exact List.drop_left' (by decide)
    rw [hdrop] at hmatch
    cases tail with
    | nil => simp at hmatch
    | cons c rest => exact ⟨c, rest, ht.symm, hmatch⟩
  · rintro ⟨c, rest, hm, hc⟩
    have h1 : "begin".data.isPrefixOf m.data = true := by
      rw [List.isPrefixOf_iff_prefix, hm]
      exact List.prefix_append _ _
    have h2 : m.data.drop 5 = c :: rest := by
      rw [hm]
      exact List.drop_left' (by decide)
    have h3 : 5 < m.data.length := by
      rw [hm]
      simp only [List.length_append, List.length_cons]
      omega
    rw [h1, decide_eq_true h3, h2]
    show (true && true && c.isUpper) = true
    rw [hc]
    rfl

end Codemod

open Codemod.Tree in
/-- Claim C1 (counterexample): for the tree `await client.beginBeginStartAndWait();`
the call-pattern transform is not idempotent: the first run renames the
method to `beginStart` (again a begin-candidate), and the second run rewrites
the call again, so applying the transform twice differs from applying it
once. -/
theorem claim_C1_counterexample :
    LROTransform.transform
        (.cons (.exprStmt (.awaitE (.call
          (.propAccess (.ident "client") "beginBeginStartAndWait") .nil))) .nil)
      = some (.cons (.exprStmt (.awaitE (.call
          (.propAccess (.ident "client") "beginStart") .nil))) .nil)
  ∧ LROTransform.transform
        (.cons (.exprStmt (.awaitE (.call
          (.propAccess (.ident "client") "beginStart") .nil))) .nil)
      = some (.cons (.exprStmt (.awaitE (.call (.propAccess
          (.call (.propAccess (.ident "client") "start") .nil) "submitted") .nil))) .nil)
  ∧ (.cons (.exprStmt (.awaitE (.call
        (.propAccess (.ident "client") "beginStart") .nil))) .nil : Stmts)
      ≠ (.cons (.exprStmt (.awaitE (.call (.propAccess
          (.call (.propAccess (.ident "client") "start") .nil) "submitted") .nil))) .nil) :=
  ⟨rfl, rfl, by decide⟩

open Codemod.Tree in
/-- Claim C1 (amended): the object-literal transform is idempotent on every
tree; the call-pattern transform, and the composition of both transforms,
are idempotent provided no member-access name in the tree is an `AndWait`
begin-candidate whose rewritten name is again a begin-candidate (the
condition `goodStmts`), and provided the run terminates without an
exception. -/
theorem claim_C1_amended :
    (∀ T : Stmts, PropertyNestingTransform.transform (PropertyNestingTransform.transform T)
        = PropertyNestingTransform.transform T)
  ∧ (∀ T T1 : Stmts, goodStmts T = true → LROTransform.transform T = some T1 →
      LROTransform.transform T1 = some T1)
  ∧ (∀ T U : Stmts, goodStmts T = true → pipeline T = some U → pipeline U = some U) := by
  refine ⟨PropertyNestingTransform.transform_idem, ?_, ?_⟩
  · intro T T1 hg h
    exact LROTransform.processStmts_fix true T T1 hg h
  · intro T U hg h
    rw [pipeline, PropertyNestingTransform.transform] at h
    have hgv : goodStmts (PropertyNestingTransform.visitStmts T) :=
      PropertyNestingTransform.visitStmts_good T hg
    have hU : LROTransform.processStmts true U = some U :=
      LROTransform.processStmts_fix true (PropertyNestingTransform.visitStmts T) U hgv h
    have hUv : PropertyNestingTransform.visitStmts U = U :=
      LROTransform.processStmts_visitFix true (PropertyNestingTransform.visitStmts T) U
        (PropertyNestingTransform.visitStmts_idem T) h
    rw [pipeline, PropertyNestingTransform.transform, hUv, LROTransform.transform]
    exact hU

open Codemod.Tree in
/-- Claim C1 (witness): the amended theorem applied to the concrete tree
`await c.beginStartAndWait();`, whose rewritten name `start` is not again a
candidate. -/
theorem claim_C1_witness :
    goodStmts (.cons (.exprStmt (.awaitE (.call
        (.propAccess (.ident "c") "beginStartAndWait") .nil))) .nil) = true
  ∧ LROTransform.transform (.cons (.exprStmt (.awaitE (.call
        (.propAccess (.ident "c") "start") .nil))) .nil)
      = some (.cons (.exprStmt (.awaitE (.call
          (.propAccess (.ident "c") "start") .nil))) .nil)
  ∧ pipeline (.cons (.exprStmt (.awaitE (.call
        (.propAccess (.ident "c") "start") .nil))) .nil)
      = some (.cons (.exprStmt (.awaitE (.call
          (.propAccess (.ident "c") "start") .nil))) .nil) :=
  ⟨rfl,
   claim_C1_amended.2.1
     (.cons (.exprStmt (.awaitE (.call (.propAccess (.ident "c") "beginStartAndWait") .nil))) .nil)
     (.cons (.exprStmt (.awaitE (.call (.propAccess (.ident "c") "start") .nil))) .nil)
     rfl rfl,
   claim_C1_amended.2.2
     (.cons (.exprStmt (.awaitE (.call (.propAccess (.ident "c") "beginStartAndWait") .nil))) .nil)
     (.cons (.exprStmt (.awaitE (.call (.propAccess (.ident "c") "start") .nil))) .nil)
     rfl rfl⟩

open Codemod.Tree in
/-- Claim C2 (counterexample): on the tree
`await client.beginStart(await p);` — an await-expression nested in the
arguments of another await-expression whose operand is rewritten — the
rewrite replaces the whole operand and forgets the enumerated inner
await-expression, and the loop then throws: the pass does not terminate
normally (`none` models the escaping exception). -/
theorem claim_C2_counterexample :
    LROTransform.transform
        (.cons (.exprStmt (.awaitE (.call (.propAccess (.ident "client") "beginStart")
          (.cons (.awaitE (.ident "p")) .nil)))) .nil) = none
  ∧ noNestedStmts
        (.cons (.exprStmt (.awaitE (.call (.propAccess (.ident "client") "beginStart")
          (.cons (.awaitE (.ident "p")) .nil)))) .nil) = false :=
  ⟨rfl, rfl⟩

open Codemod.Tree in
/-- Claim C2 (amended): the call-pattern transform always terminates, and no
exception propagates out of it provided no await-expression is nested inside
the operand of another await-expression; every non-matching shape is handled
by an early-return skip. -/
theorem claim_C2_amended (T : Stmts) (h : noNestedStmts T = true) :
    ∃ T', LROTransform.transform T = some T' :=
  LROTransform.processStmts_noNested true T h

open Codemod.Tree in
/-- Claim C2 (witness): the amended theorem applied to a concrete tree with
one await-expression of each rewrite pattern and no nesting. -/
theorem claim_C2_witness :
    ∃ T', LROTransform.transform
      (.cons (.varDecl "poller" (.awaitE (.call
        (.propAccess (.ident "client") "beginStart") .nil)))
      (.cons (.exprStmt (.awaitE (.call
        (.propAccess (.ident "client") "beginStopAndWait") .nil))) .nil)) = some T' :=
  claim_C2_amended
    (.cons (.varDecl "poller" (.awaitE (.call
      (.propAccess (.ident "client") "beginStart") .nil)))
    (.cons (.exprStmt (.awaitE (.call
      (.propAccess (.ident "client") "beginStopAndWait") .nil))) .nil)) (by decide)

open Codemod.Tree in
/-- Claim C4 (counterexample): for `const p = await client.beginStart();`
inside a case clause (a container that is neither a block nor a top-level
sequence), the rewrite is not a no-op: the initializer is still rewritten to
the bare renamed call (its `await` and the original name are lost), only the
statement insertion is skipped. -/
theorem claim_C4_counterexample :
    LROTransform.transform
        (.cons (.caseClause (.cons (.varDecl "p" (.awaitE (.call
          (.propAccess (.ident "client") "beginStart") .nil))) .nil)) .nil)
      = some (.cons (.caseClause (.cons (.varDecl "p" (.call
          (.propAccess (.ident "client") "start") .nil)) .nil)) .nil)
  ∧ (.cons (.caseClause (.cons (.varDecl "p" (.call
        (.propAccess (.ident "client") "start") .nil)) .nil)) .nil : Stmts)
      ≠ (.cons (.caseClause (.cons (.varDecl "p" (.awaitE (.call
          (.propAccess (.ident "client") "beginStart") .nil))) .nil)) .nil) :=
  ⟨rfl, by decide⟩

open Codemod.Tree in
/-- Claim C4 (amended): for an await-expression bound to a variable whose
begin-prefixed method has no `AndWait` suffix, inside a statement container
that is neither a block nor a top-level sequence (a case clause), the
statement insertion is silently skipped — no `await x.submitted();` is
inserted — and the pass continues with the following candidates; the
binding's initializer, however, is still rewritten to the bare renamed call:
the `await` is dropped and the method name replaced. -/
theorem claim_C4_amended (x : String) (t : Codemod.Tree.Expr) (m : String)
    (args : Codemod.Tree.Args) (rest rest' : Stmts)
    (hb : Codemod.isBeginMethod m = true) (hw : Codemod.isAndWaitMethod m = false)
    (hct : LROTransform.containsAwait t = false)
    (hca : LROTransform.containsAwaitArgs args = false)
    (hrest : LROTransform.processStmts true rest = some rest') :
    LROTransform.transform
        (.cons (.caseClause (.cons (.varDecl x (.awaitE (.call
          (.propAccess t m) args))) .nil)) rest)
      = some (.cons (.caseClause (.cons (.varDecl x (.call
          (.propAccess t (Codemod.transformMethodName m)) args)) .nil)) rest') := by
  rw [LROTransform.transform, LROTransform.processStmts, hrest, LROTransform.processStmt,
    LROTransform.processStmts, LROTransform.processStmt.eq_1, if_pos hb,
    if_neg (by simp [hw]), if_neg (by simp [hct, hca]), if_neg Bool.false_ne_true,
    LROTransform.processStmts]
  rfl

open Codemod.Tree in
/-- Claim C4 (witness): the amended theorem applied to the concrete input
`case: const p = await client.beginStart();` followed by another candidate
statement, which is still processed. -/
theorem claim_C4_witness :
    LROTransform.transform
        (.cons (.caseClause (.cons (.varDecl "p" (.awaitE (.call
          (.propAccess (.ident "client") "beginStart") .nil))) .nil))
        (.cons (.exprStmt (.awaitE (.call
          (.propAccess (.ident "client") "beginStopAndWait") .nil))) .nil))
      = some (.cons (.caseClause (.cons (.varDecl "p" (.call
          (.propAccess (.ident "client")
            (Codemod.transformMethodName "beginStart")) .nil)) .nil))
        (.cons (.exprStmt (.awaitE (.call
          (.propAccess (.ident "client") "stop") .nil))) .nil)) :=
  claim_C4_amended "p" (.ident "client") "beginStart" .nil
    (.cons (.exprStmt (.awaitE (.call
      (.propAccess (.ident "client") "beginStopAndWait") .nil))) .nil)
    (.cons (.exprStmt (.awaitE (.call
      (.propAccess (.ident "client") "stop") .nil))) .nil)
    (by decide) (by decide) rfl rfl rfl

open Codemod.Tree in
/-- Claim C6: a method name is a rewrite candidate exactly when it is
`begin` followed by at least one character whose first is an ASCII uppercase
letter; the derivation strips `begin`, strips a trailing `AndWait`, and
lowercases the first remaining character, giving the four spec examples; and
`beginwork` is not a candidate and the transform leaves its tree unchanged. -/
theorem claim_C6 :
    (∀ m : String, Codemod.isBeginMethod m = true ↔
        ∃ c rest, m.data = "begin".data ++ c :: rest ∧ c.isUpper = true)
  ∧ Codemod.transformMethodName "beginCreateOrUpdate" = "createOrUpdate"
  ∧ Codemod.transformMethodName "beginCreateOrUpdateAndWait" = "createOrUpdate"
  ∧ Codemod.transformMethodName "beginStart" = "start"
  ∧ Codemod.isBeginMethod "beginwork" = false
  ∧ LROTransform.transform
      (.cons (.exprStmt (.awaitE (.call
        (.propAccess (.ident "client") "beginwork") .nil))) .nil)
      = some (.cons (.exprStmt (.awaitE (.call
        (.propAccess (.ident "client") "beginwork") .nil))) .nil) :=
  ⟨Codemod.isBeginMethod_iff, rfl, rfl, rfl, rfl, rfl⟩

/-- Claim C6 (witness): the classification applied to `beginStart`. -/
theorem claim_C6_witness : Codemod.isBeginMethod "beginStart" = true :=
  (claim_C6.1 "beginStart").mpr ⟨'S', "tart".data, by decide, by decide⟩

open Codemod.Tree in
/-- Claim C7: for `const poller = await client.beginStart(<args>);` at top
level or inside a block, the call-pattern transform produces exactly the two
statements `const poller = client.start(<args>);` and
`await poller.submitted();`, with the argument list carried over verbatim
(for any await-free argument list). -/
theorem claim_C7 (args : Codemod.Tree.Args)
    (h : LROTransform.containsAwaitArgs args = false) :
    LROTransform.transform
        (.cons (.varDecl "poller" (.awaitE (.call
          (.propAccess (.ident "client") "beginStart") args))) .nil)
      = some (.cons (.varDecl "poller" (.call
          (.propAccess (.ident "client") "start") args))
        (.cons (.exprStmt (.awaitE (.call
          (.propAccess (.ident "poller") "submitted") .nil))) .nil))
  ∧ LROTransform.transform
        (.cons (.block (.cons (.varDecl "poller" (.awaitE (.call
          (.propAccess (.ident "client") "beginStart") args))) .nil)) .nil)
      = some (.cons (.block (.cons (.varDecl "poller" (.call
          (.propAccess (.ident "client") "start") args))
        (.cons (.exprStmt (.awaitE (.call
          (.propAccess (.ident "poller") "submitted") .nil))) .nil))) .nil) := by
  have hname : Codemod.transformMethodName "beginStart" = "start" := by decide
  have hinner : LROTransform.processStmts true
      (.cons (.varDecl "poller" (.awaitE (.call
        (.propAccess (.ident "client") "beginStart") args))) .nil)
      = some (.cons (.varDecl "poller" (.call
          (.propAccess (.ident "client") "start") args))
        (.cons (.exprStmt (.awaitE (.call
          (.propAccess (.ident "poller") "submitted") .nil))) .nil)) := by
    rw [LROTransform.processStmts, LROTransform.processStmt.eq_1, if_pos (by decide),
      if_neg (by decide), if_neg (by simp [LROTransform.containsAwait, h]), if_pos rfl,
      LROTransform.processStmts, hname]
    rfl
  constructor
  · rw [LROTransform.transform]
    exact hinner
  · rw [LROTransform.transform, LROTransform.processStmts, LROTransform.processStmt, hinner,
      LROTransform.processStmts]
    rfl

open Codemod.Tree in
/-- Claim C7 (witness): the theorem applied to the spec's scenario input
with the single argument `options`. -/
theorem claim_C7_witness :
    LROTransform.transform
        (.cons (.varDecl "poller" (.awaitE (.call
          (.propAccess (.ident "client") "beginStart")
          (.cons (.ident "options") .nil)))) .nil)
      = some (.cons (.varDecl "poller" (.call
          (.propAccess (.ident "client") "start") (.cons (.ident "options") .nil)))
        (.cons (.exprStmt (.awaitE (.call
          (.propAccess (.ident "poller") "submitted") .nil))) .nil)) :=
  (claim_C7 (.cons (.ident "options") .nil) (by decide)).1

open Codemod.Tree in
/-- Claim C8: the composed pipeline (object-literal pass, then call-pattern
pass) is a deterministic function of the input tree: two runs from equal
inputs produce equal outputs.  In this embedding both passes are pure
functions of the tree with no other input dependence, so determinism is
inherited from the model. -/
theorem claim_C8 (T1 T2 : Stmts) (h : T1 = T2) : pipeline T1 = pipeline T2 := by
  rw [h]

open Codemod.Tree in
/-- Claim C8 (witness): two runs on the same concrete input tree give the
same output. -/
theorem claim_C8_witness :
    pipeline (.cons (.varDecl "r" (.objectLit (.cons (.passign "location" (.atom "e"))
        (.cons (.passign "foo" (.atom "1")) .nil)))) .nil)
      = pipeline (.cons (.varDecl "r" (.objectLit (.cons (.passign "location" (.atom "e"))
        (.cons (.passign "foo" (.atom "1")) .nil)))) .nil) :=
  claim_C8 _ _ rfl

open Codemod.Tree in
/-- Claim C10 (implicit): `beginAndWait` passes the candidate classification
(the character after `begin` is the uppercase `A`), its derivation strips
both the `begin` prefix and the `AndWait` suffix leaving the empty string,
and the transform replaces the method-name token with empty text. -/
theorem claim_C10 :
    Codemod.isBeginMethod "beginAndWait" = true
  ∧ Codemod.isAndWaitMethod "beginAndWait" = true
  ∧ Codemod.transformMethodName "beginAndWait" = ""
  ∧ LROTransform.transform
      (.cons (.exprStmt (.awaitE (.call
        (.propAccess (.ident "client") "beginAndWait") .nil))) .nil)
      = some (.cons (.exprStmt (.awaitE (.call
        (.propAccess (.ident "client") "") .nil))) .nil) :=
  ⟨rfl, rfl, rfl, rfl⟩
